import Mathlib

/-!
Verification of the red-black-tree map in `src/map.hpp` (namespace `sjtu`,
class `map<Key, T, Compare>`).

Embedding notes.
* A tree node (`struct Node`, lines 30-37) carries a key-value pair, a color
  (`true` = red, `false` = black, line 33) and child pointers.  We model the
  heap-allocated tree as the inductive `Tree`.
* The `parent` pointer of a node is a non-owning back reference (spec section 3);
  in the embedding a node position is a zipper context `Ctx`: the part of the
  tree above the node.  Following the parent pointer is peeling one layer of
  context; `plug` rebuilds the whole tree from a context and a subtree.
* The key type is any linear order; `comp` (`std::less<Key>`) is `(· < ·)`.
* The imperative `while` loops of `fixInsert` (lines 81-118) and `fixDelete`
  (lines 148-203) walk up the tree by parent pointers.  They are embedded as
  fuel-indexed loops on zipper positions; the fuel given at the call sites
  (depth of the context plus a constant) dominates the number of iterations of
  the source loops, which move the position strictly towards the root.
* `fixDelete` reads the sibling `w` of the focus without a null check
  (lines 152/177 and 159/184); when `w` is null the program dereferences a
  null pointer and crashes.  The delete path is therefore embedded partially:
  `fixDelete`, `deleteNode`'s result tree, `erase` and operation runs return
  an `Option`, and `none` marks the crash.  Undefined behaviour on freed
  memory (a stale iterator passed to `erase`) is modeled the same way.
-/

set_option linter.unusedSectionVars false

namespace SjtuMap

/-- A red-black tree node: `data`, `left`, `right`, `color` (lines 30-37).
`color = true` means red, `false` means black. -/
inductive Tree (K V : Type) where
  | nil : Tree K V
  | node (left : Tree K V) (data : K × V) (color : Bool) (right : Tree K V) : Tree K V
deriving DecidableEq, Repr

/-- A position in a tree, i.e. everything above a focused subtree.
`Ctx.left up d col sib` : the focus is the LEFT child of a node with data `d`,
color `col`, right child `sib`, itself located at `up`.  Following the
`parent` pointer of the focus means peeling one constructor. -/
inductive Ctx (K V : Type) where
  | root : Ctx K V
  | left (up : Ctx K V) (data : K × V) (color : Bool) (sib : Tree K V) : Ctx K V
  | right (up : Ctx K V) (data : K × V) (color : Bool) (sib : Tree K V) : Ctx K V
deriving DecidableEq, Repr

namespace Tree

variable {K V : Type}

/-- In-order traversal of the stored pairs. -/
def inorder : Tree K V → List (K × V)
  | nil => []
  | node l d _ r => inorder l ++ d :: inorder r

/-- The stored keys, in in-order. -/
def keys (t : Tree K V) : List K := (inorder t).map Prod.fst

/-- Number of nodes. -/
def count : Tree K V → Nat
  | nil => 0
  | node l _ _ r => count l + count r + 1

/-- `x->color = false` on a (possibly null) node: blacken the root of a subtree.
Used for `root->color = false` (line 117) and the guarded recolorings
(lines 164, 171, 189, 196, 202). -/
def setBlack : Tree K V → Tree K V
  | nil => nil
  | node l d _ r => node l d false r

/-- `leftRotate(x)` (lines 45-61) acting on the subtree rooted at the pivot
`x`; the links to the surrounding tree are handled by the caller's context.
If `x->right` is null the source would dereference null (undefined); no call
site does that, and the embedding returns the tree unchanged there. -/
def rotateLeft : Tree K V → Tree K V
  | node a xd xc (node b yd yc c) => node (node a xd xc b) yd yc c
  | t => t

/-- `rightRotate(x)` (lines 63-79), mirror of `rotateLeft`. -/
def rotateRight : Tree K V → Tree K V
  | node (node a yd yc b) xd xc c => node a yd yc (node b xd xc c)
  | t => t

end Tree

namespace Ctx

variable {K V : Type}

open Tree in
/-- Rebuild the full tree from a context and the focused subtree. -/
def plug : Ctx K V → Tree K V → Tree K V
  | root, t => t
  | left up d col sib, t => plug up (node t d col sib)
  | right up d col sib, t => plug up (node sib d col t)

/-- Depth of a position (number of ancestors). -/
def depth : Ctx K V → Nat
  | root => 0
  | left up _ _ _ => depth up + 1
  | right up _ _ _ => depth up + 1

open Tree in
/-- The pairs that in-order traversal emits before the focused subtree. -/
def ctxL : Ctx K V → List (K × V)
  | root => []
  | left up _ _ _ => ctxL up
  | right up d _ sib => ctxL up ++ inorder sib ++ [d]

open Tree in
/-- The pairs that in-order traversal emits after the focused subtree. -/
def ctxR : Ctx K V → List (K × V)
  | root => []
  | left up d _ sib => d :: (inorder sib ++ ctxR up)
  | right up _ _ _ => ctxR up

end Ctx

section Engine

variable {K V : Type} [LinearOrder K]

open Tree Ctx

/-- `fixInsert(z)` loop (lines 81-118) at position `(c, z)`.  Iterates while
the parent exists and is red.  The uncle-red branches recolor and move `z`
to the grandparent (two levels up); the other branches recolor, rotate and
leave the loop (the new parent of `z` is black).  The fuel dominates the
iteration count: every recursive call shrinks the context depth by two. -/
def fixInsertLoop : Nat → Ctx K V → Tree K V → Tree K V
  | 0, c, z => c.plug z
  | fuel + 1, c, z =>
    match c with
    | .root => Ctx.plug .root z          -- z->parent == nullptr: loop exits (line 82)
    | .left pctx pd pcol psib =>
      -- z is the left child of its parent p = node z pd pcol psib
      if pcol = false then c.plug z       -- parent black: loop exits (line 82)
      else
        match pctx with
        | .root => c.plug z               -- red parent at the root: never happens (root kept black)
        | .left gctx gd _ uncle =>
          -- p is the left child of g; uncle y = g->right (line 84)
          match uncle with
          | .node ul ud true ur =>
            -- uncle red (lines 85-89): p, y black; g red; z := g
            fixInsertLoop fuel gctx
              (.node (.node z pd false psib) gd true (.node ul ud false ur))
          | _ =>
            -- uncle black or null, z outer (lines 95-97): p black, g red, rightRotate(g)
            gctx.plug (rotateRight (.node (.node z pd false psib) gd true uncle))
        | .right gctx gd _ uncle =>
          -- p is the right child of g; uncle y = g->left (line 100)
          match uncle with
          | .node ul ud true ur =>
            fixInsertLoop fuel gctx
              (.node (.node ul ud false ur) gd true (.node z pd false psib))
          | _ =>
            -- z inner (lines 107-110): z := p; rightRotate(z); then p' black,
            -- g red, leftRotate(g) (lines 111-113)
            gctx.plug (rotateLeft (.node uncle gd true (setBlack (rotateRight (.node z pd pcol psib)))))
    | .right pctx pd pcol psib =>
      -- z is the right child of its parent p = node psib pd pcol z
      if pcol = false then c.plug z
      else
        match pctx with
        | .root => c.plug z
        | .left gctx gd _ uncle =>
          match uncle with
          | .node ul ud true ur =>
            fixInsertLoop fuel gctx
              (.node (.node psib pd false z) gd true (.node ul ud false ur))
          | _ =>
            -- z inner (lines 91-94): z := p; leftRotate(z); then p' black,
            -- g red, rightRotate(g) (lines 95-97)
            gctx.plug (rotateRight (.node (setBlack (rotateLeft (.node psib pd pcol z))) gd true uncle))
        | .right gctx gd _ uncle =>
          match uncle with
          | .node ul ud true ur =>
            fixInsertLoop fuel gctx
              (.node (.node ul ud false ur) gd true (.node psib pd false z))
          | _ =>
            -- z outer (lines 111-113): p black, g red, leftRotate(g)
            gctx.plug (rotateLeft (.node uncle gd true (.node psib pd false z)))

/-- `fixInsert(z)` (lines 81-118): run the loop and blacken the root
(line 117, `root->color = false`). -/
def fixInsert (c : Ctx K V) (z : Tree K V) : Tree K V :=
  setBlack (fixInsertLoop (c.depth + 1) c z)

/-- The descent of `insertNode` (lines 235-262): walk down comparing with
`comp`, building the context; on an equal key return the tree unchanged with
flag `false` (line 246, no mutation); at a null link attach the new node,
red (line 36), and run `fixInsert`.  Returns (tree, inserted?). -/
def insGo (k : K) (v : V) : Ctx K V → Tree K V → Tree K V × Bool
  | c, .nil => (fixInsert c (.node .nil (k, v) true .nil), true)
  | c, .node l d col r =>
    if k < d.1 then insGo k v (.left c d col r) l
    else if d.1 < k then insGo k v (.right c d col l) r
    else (c.plug (.node l d col r), false)

/-- Color of a possibly-null node: a null reference counts as black, as in
the source's tests `p == nullptr || !p->color`. -/
def Tree.colorOf : Tree K V → Bool
  | .nil => false
  | .node _ _ c _ => c

/-- `t == nullptr` as a boolean. -/
def Tree.isNil : Tree K V → Bool
  | .nil => true
  | .node _ _ _ _ => false

/-- Replace the `root` end of the inner context by another context: the
position `ctxGraft o i` is the position `i` inside the subtree focused
at position `o`. -/
def ctxGraft (o : Ctx K V) : Ctx K V → Ctx K V
  | .root => o
  | .left up d col sib => .left (ctxGraft o up) d col sib
  | .right up d col sib => .right (ctxGraft o up) d col sib

/-- `minimum(x)` (lines 133-138) on a location: descend left links, extending
the context, until the left child is null. -/
def minLoc : Ctx K V → Tree K V → Ctx K V × Tree K V
  | c, .node (.node a d2 c2 b) d col r => minLoc (.left c d col r) (.node a d2 c2 b)
  | c, t => (c, t)

/-- `fixDelete(x)` loop body for the cases after the sibling-red pre-step
(lines 158-173 when `x` is a left child, lines 183-199 mirrored).
`side = false` means `x` is the left child of its parent.  Arguments:
`pctx` the parent's position, `pd`/`pcol` the parent's data and color,
`w` the sibling, `x` the focus.  Returns the rebuilt whole tree, or `none`
when the source dereferences a null sibling and crashes;
`fixLoop` continues the loop (it is `fixDeleteLoop fuel`). -/
def fixDeleteCases (fixLoop : Ctx K V → Tree K V → Option (Tree K V))
    (side : Bool) (pctx : Ctx K V) (pd : K × V) (pcol : Bool)
    (w x : Tree K V) : Option (Tree K V) :=
  match side, w with
  | _, .nil =>
    -- the sibling is null: the source dereferences it (`w->color` at
    -- line 152/177 on direct entry, `w->left`/`w->right` at line 159/184
    -- after the red-sibling pre-step) and crashes.  In a valid red-black
    -- tree a black non-root node has a non-null sibling, but the skipped
    -- fix-up of line 294 corrupts the shape, so this branch is reachable;
    -- `none` models the crash
    none
  | false, .node wl wd wc wr =>
    if (wl.colorOf = false) && (wr.colorOf = false) then
      -- both of w's children black/null (lines 158-161): w red, x := parent
      fixLoop pctx (.node x pd pcol (.node wl wd true wr))
    else
      -- lines 162-173
      let w2 := if wr.colorOf = false
        then rotateRight (.node (setBlack wl) wd true wr)  -- lines 163-167
        else .node wl wd wc wr
      match w2 with
      | .node w2l w2d _ w2r =>
        -- lines 169-173: w takes the parent's color, parent black,
        -- w->right black, leftRotate(parent), x := root; then after the
        -- loop `x->color = false` blackens the root of the whole tree
        some (setBlack (pctx.plug (rotateLeft (.node x pd false (.node w2l w2d pcol (setBlack w2r))))))
      | .nil => some ((Ctx.left pctx pd pcol w).plug x)   -- unreachable for every input: w2 is a rotation applied to a node, always a node
  | true, .node wl wd wc wr =>
    if (wl.colorOf = false) && (wr.colorOf = false) then
      -- lines 183-186
      fixLoop pctx (.node (.node wl wd true wr) pd pcol x)
    else
      let w2 := if wl.colorOf = false
        then rotateLeft (.node wl wd true (setBlack wr))  -- lines 188-192
        else .node wl wd wc wr
      match w2 with
      | .node w2l w2d _ w2r =>
        -- lines 194-198: w takes the parent's color, parent black,
        -- w->left black, rightRotate(parent), x := root; then root black
        some (setBlack (pctx.plug (rotateRight (.node (.node (setBlack w2l) w2d pcol w2r) pd false x))))
      | .nil => some ((Ctx.right pctx pd pcol w).plug x)

/-- The `fixDelete(x)` loop (lines 148-203) at position `(c, x)`:
`while (x != root && (x == nullptr || !x->color))`.  The only way the loop
continues to another iteration is `x = x->parent` (lines 161, 186), one
level up, except that after the sibling-red pre-step the continuation sits
at the same depth with a red parent, so the next iteration exits; the fuel
at the call site covers both.  `none` propagates the null-sibling crash of
`fixDeleteCases`. -/
def fixDeleteLoop : Nat → Ctx K V → Tree K V → Option (Tree K V)
  | 0, c, x => some (c.plug x)
  | fuel + 1, c, x =>
    match c, x with
    | .root, x => some (Ctx.plug .root (setBlack x))   -- x == root: exit; `x->color = false` (line 202)
    | c, .nil => some (c.plug .nil)                     -- null x below the root: unreachable (x is non-null at the call, line 294, and stays non-null)
    | c, .node a b true d => some (c.plug (setBlack (.node a b true d)))  -- x red: exit; blacken x (line 202)
    | .left pctx pd pcol w, x =>
      -- x is a black left child; sibling w = x->parent->right (line 151)
      match w with
      | .node wl wd true wr =>
        -- sibling red (lines 152-157): w black, parent red, leftRotate(parent),
        -- refresh w := x->parent->right (now the old w->left)
        fixDeleteCases (fixDeleteLoop fuel) false (.left pctx wd false wr) pd true wl x
      | _ => fixDeleteCases (fixDeleteLoop fuel) false pctx pd pcol w x
    | .right pctx pd pcol w, x =>
      -- x is a black right child; sibling w = x->parent->left (line 176)
      match w with
      | .node wl wd true wr =>
        -- lines 177-181: w black, parent red, rightRotate(parent), refresh w
        fixDeleteCases (fixDeleteLoop fuel) true (.right pctx wd false wl) pd true wr x
      | _ => fixDeleteCases (fixDeleteLoop fuel) true pctx pd pcol w x

/-- `fixDelete(x)` (lines 148-203): the fixed tree, or `none` when the pass
dereferences a null sibling and crashes. -/
def fixDelete (c : Ctx K V) (x : Tree K V) : Option (Tree K V) :=
  fixDeleteLoop (c.depth + 2) c x

end Engine

/-- Result of `deleteNode` (lines 264-300): the new tree (`none` when the
executed `fixDelete` crashed on a null sibling), `y_original_color`
(line 269/279) and whether the guarded `fixDelete(x)` call (lines 294-296)
was executed. -/
structure DelResult (K V : Type) where
  tree : Option (Tree K V)
  yColor : Bool
  ranFix : Bool
deriving DecidableEq, Repr

section Engine2

variable {K V : Type} [LinearOrder K]

open Tree Ctx

/-- `deleteNode(z)` (lines 264-300) for the node at position `(c, z)`.
The spliced-out node is `y`, its original color `yColor`; `x` is the child
that replaces it.  `fixDelete(x)` runs only under the source's guard
`!y_original_color && x != nullptr` (line 294). -/
def deleteLoc : Ctx K V → Tree K V → DelResult K V
  | c, .nil => ⟨some (c.plug .nil), true, false⟩   -- line 265: z == nullptr, no-op
  | c, .node .nil _ zc zr =>
    -- line 271: z->left null; x = z->right; transplant(z, z->right)
    ⟨if (!zc) && !zr.isNil then fixDelete c zr else some (c.plug zr), zc, (!zc) && !zr.isNil⟩
  | c, .node (.node a d2 c2 b) _ zc .nil =>
    -- line 274: z->right null; x = z->left; transplant(z, z->left)
    ⟨if (!zc) && !(Tree.node a d2 c2 b).isNil then fixDelete c (.node a d2 c2 b)
      else some (c.plug (.node a d2 c2 b)), zc, (!zc) && !(Tree.node a d2 c2 b).isNil⟩
  | c, .node (.node a d2 c2 b) zdat zc (.node e d3 c3 f) =>
    -- line 277: two children; y = minimum(z->right) (line 278), x = y->right
    let zl : Tree K V := .node a d2 c2 b
    let zr : Tree K V := .node e d3 c3 f
    match minLoc .root zr with
    | (.root, .node .nil yd yc yr) =>
      -- y->parent == z (line 281): y is z->right itself; y->left := z->left,
      -- y->color := z->color (lines 288-291); x = y->right stays in place
      ⟨if (!yc) && !yr.isNil then fixDelete (.right c yd zc zl) yr
        else some (c.plug (.node zl yd zc yr)), yc, (!yc) && !yr.isNil⟩
    | (ic, .node .nil yd yc yr) =>
      -- deeper successor (lines 283-287): transplant(y, y->right), then y takes
      -- z's place, children and color (lines 285-291); x = y->right sits at
      -- y's former position inside the new right subtree
      ⟨if (!yc) && !yr.isNil then fixDelete (ctxGraft (.right c yd zc zl) ic) yr
        else some (c.plug (.node zl yd zc (ic.plug yr))), yc, (!yc) && !yr.isNil⟩
    | (_, _) => ⟨some (c.plug (.node zl zdat zc zr)), true, false⟩  -- unreachable: the minimum has a null left child

/-- `findNode(key)` (lines 221-233), returning the position of the node. -/
def findLoc : Ctx K V → Tree K V → K → Option (Ctx K V × Tree K V)
  | _, .nil, _ => none
  | c, .node l d col r, k =>
    if k < d.1 then findLoc (.left c d col r) l k
    else if d.1 < k then findLoc (.right c d col l) r k
    else some (c, .node l d col r)

/-- The mapped value stored for `k`, if any (`findNode(key)->data.second`). -/
def findVal (t : Tree K V) (k : K) : Option V :=
  match findLoc .root t k with
  | some (_, .node _ d _ _) => some d.2
  | _ => none

/-- `findNode(key)` (lines 221-233) as the found subtree alone (the node the
returned pointer designates), without its position. -/
def findSub : Tree K V → K → Option (Tree K V)
  | .nil, _ => none
  | .node l d col r, k =>
    if k < d.1 then findSub l k
    else if d.1 < k then findSub r k
    else some (.node l d col r)

/-- The mapped value of the node `findNode` returns, phrased on `findSub`. -/
def findValSub (t : Tree K V) (k : K) : Option V :=
  match findSub t k with
  | some (.node _ d _ _) => some d.2
  | _ => none

/-- `count(key)` (lines 680-682). -/
def countK (t : Tree K V) (k : K) : Nat :=
  match findLoc .root t k with
  | some _ => 1
  | none => 0

/-- `at(key)` (lines 561-571): value or `index_out_of_bound`; no write occurs
on any path of the source, so the map is untouched. -/
def atVal (t : Tree K V) (k : K) : Except Unit V :=
  match findLoc .root t k with
  | some (_, .node _ d _ _) => .ok d.2
  | _ => .error ()

end Engine2

/-- The container state: `root` and `map_size` (lines 39-41). -/
structure MapS (K V : Type) where
  tree : Tree K V
  msize : Nat
deriving DecidableEq, Repr

section MapOps

variable {K V : Type} [LinearOrder K]

open Tree Ctx

/-- `insertNode(value)` (lines 235-262) with the `map_size++` of line 260. -/
def insertNodeM (m : MapS K V) (k : K) (v : V) : MapS K V × Bool :=
  let p := insGo k v .root m.tree
  (⟨p.1, if p.2 then m.msize + 1 else m.msize⟩, p.2)

/-- `insert(value)` (lines 650-658): `findNode` first; an existing key returns
the untouched map with flag `false`. -/
def insertOp (m : MapS K V) (k : K) (v : V) : MapS K V × Bool :=
  match findLoc .root m.tree k with
  | some _ => (m, false)
  | none => insertNodeM m k v

/-- `insert(value)` (lines 650-658) with the returned iterator.  On an
existing key the iterator is built on the node `findNode` returned
(line 653).  On a successful insertion the iterator holds the pointer to
the node allocated in `insertNode` (line 657); that node is the node of the
new tree holding `k`, located here by the same descent. -/
def insertFull (m : MapS K V) (k : K) (v : V) :
    MapS K V × Option (Ctx K V × Tree K V) × Bool :=
  match findLoc .root m.tree k with
  | some loc => (m, some loc, false)
  | none =>
    let p := insertNodeM m k v
    (p.1, findLoc .root p.1.tree k, true)

/-- `erase(find(key))` (lines 665-671, 690-694) with the `map_size--` of
line 299.  An absent key makes `find` return `end()`, and `erase` throws
`invalid_iterator` before any mutation (line 666).  `none`: the delete
fix-up dereferenced a null sibling and the program crashed. -/
def eraseKey (m : MapS K V) (k : K) : Option (MapS K V) :=
  match findLoc .root m.tree k with
  | none => some m
  | some (c, z) =>
    match (deleteLoc c z).tree with
    | some t => some ⟨t, m.msize - 1⟩
    | none => none

/-- `operator[]` (lines 579-586): the existing value, or insert a
default-constructed value and return it. -/
def opIndex (dflt : V) (m : MapS K V) (k : K) : MapS K V × V :=
  match findLoc .root m.tree k with
  | some (_, .node _ d _ _) => (m, d.2)
  | _ => ((insertNodeM m k dflt).1, dflt)

/-- Writing `v` through the reference returned by `operator[](k)`: the node
containing `k` (found by the same descent) gets its mapped value replaced.
The key itself is `const` (line 26) and cannot change. -/
def setVal (t : Tree K V) (k : K) (v : V) : Tree K V :=
  match findLoc .root t k with
  | some (c, .node l d col r) => c.plug (.node l (d.1, v) col r)
  | _ => t

/-- The statement `m[k] = v`. -/
def opIndexAssign (dflt : V) (m : MapS K V) (k : K) (v : V) : MapS K V :=
  ⟨setVal (opIndex dflt m k).1.tree k v, (opIndex dflt m k).1.msize⟩

end MapOps

/-- A client operation on the container: `insert`, `m[k] = v`, or
`erase(find(k))`. -/
inductive Op (K V : Type) where
  | ins (k : K) (v : V)
  | idx (k : K) (v : V)
  | er (k : K)
deriving DecidableEq, Repr

section Runs

variable {K V : Type} [LinearOrder K]

/-- One operation applied to the container (`dflt` stands for the
default-constructed `T()` of line 582).  `none`: the operation crashed. -/
def runOp (dflt : V) (m : MapS K V) : Op K V → Option (MapS K V)
  | .ins k v => some (insertOp m k v).1
  | .idx k v => some (opIndexAssign dflt m k v)
  | .er k => eraseKey m k

/-- A sequence of operations run from the container `m`; `none` as soon as
one operation crashes (the remaining operations never execute). -/
def runOpsGo (dflt : V) : MapS K V → List (Op K V) → Option (MapS K V)
  | m, [] => some m
  | m, op :: ops =>
    match runOp dflt m op with
    | none => none
    | some m2 => runOpsGo dflt m2 ops

/-- A sequence of operations applied to the freshly constructed empty map
(line 527); `none` when some operation crashes. -/
def runOps (dflt : V) (ops : List (Op K V)) : Option (MapS K V) :=
  runOpsGo dflt ⟨.nil, 0⟩ ops

/-- The abstract finite-map semantics of one operation: `insert` binds only
an absent key, `m[k] = v` overwrites, `erase` removes. -/
def modelStep (f : K → Option V) : Op K V → (K → Option V)
  | .ins k v => fun j => if j = k then some ((f k).getD v) else f j
  | .idx k v => fun j => if j = k then some v else f j
  | .er k => fun j => if j = k then none else f j

/-- The abstract finite map after a sequence of operations. -/
def modelRun (ops : List (Op K V)) : K → Option V :=
  ops.foldl modelStep (fun _ => none)

/-- Black-height of every root-to-null path, or `none` if the paths disagree
somewhere (a null reference counts as one black node). -/
def blackHeight : Tree K V → Option Nat
  | .nil => some 1
  | .node l _ c r =>
    match blackHeight l, blackHeight r with
    | some a, some b => if a = b then some (a + (if c then 0 else 1)) else none
    | _, _ => none

/-- No red node has a red child. -/
def noRedRed : Tree K V → Bool
  | .nil => true
  | .node l _ c r => (!(c && (l.colorOf || r.colorOf))) && noRedRed l && noRedRed r

/-- The in-order key sequence is strictly ascending. -/
def Sorted (t : Tree K V) : Prop := List.Pairwise (· < ·) (Tree.keys t)

instance (t : Tree K V) : Decidable (Sorted t) := List.instDecidablePairwise _

/-- The red-black invariants named by the specification: strictly ascending
in-order keys, no red-red edge, and a consistent black-height. -/
def rbInvariants (t : Tree K V) : Prop :=
  Sorted t ∧ noRedRed t = true ∧ (blackHeight t).isSome = true

instance (t : Tree K V) : Decidable (rbInvariants t) := by
  unfold rbInvariants; infer_instance

end Runs

section Iterators

variable {K V : Type} [LinearOrder K]

open Tree

/-!
Iterators (lines 311-521).  An iterator holds a `Node *current` and its
container; `current == nullptr` is the `end()` sentinel (lines 612-614).
A live node is identified by its path from the root (`false` = left link,
`true` = right link); following the `parent` pointer is dropping the last
step of the path, and `current == parent->right` is that last step being
`true`.
-/

/-- The subtree at a path, when the path leads to a node. -/
def nodeAt : Tree K V → List Bool → Option (Tree K V)
  | .nil, _ => none
  | .node l d c r, [] => some (.node l d c r)
  | .node l _ _ _, false :: p => nodeAt l p
  | .node _ _ _ r, true :: p => nodeAt r p

/-- Path of `minimum(x)` (lines 133-138) relative to `x`. -/
def leftmostPath : Tree K V → List Bool
  | .node (.node a d c b) _ _ _ => false :: leftmostPath (.node a d c b)
  | _ => []

/-- Path of `maximum(x)` (lines 140-146) relative to `x`. -/
def rightmostPath : Tree K V → List Bool
  | .node _ _ _ (.node a d c b) => true :: rightmostPath (.node a d c b)
  | _ => []

/-- The parent climb of `operator++` (lines 341-346): walk up while the
current node is its parent's right child, then step to the parent;
`none` when the climb runs past the root (`current = parent` with
`parent == nullptr`, i.e. the iterator becomes `end()`). -/
def stripUpR : List Bool → Option (List Bool)
  | [] => none
  | true :: p =>
    match stripUpR p with
    | some q => some (true :: q)
    | none => none
  | false :: p =>
    match stripUpR p with
    | some q => some (false :: q)
    | none => some []

/-- The parent climb of `operator--` (lines 375-380), mirror image. -/
def stripUpL : List Bool → Option (List Bool)
  | [] => none
  | false :: p =>
    match stripUpL p with
    | some q => some (false :: q)
    | none => none
  | true :: p =>
    match stripUpL p with
    | some q => some (true :: q)
    | none => some []

/-- `operator++` (lines 335-350).  `none` is `end()`; incrementing it throws
(line 336).  Otherwise: the minimum of the right subtree if there is one,
else the parent climb, possibly reaching `end()`. -/
def incPos (t : Tree K V) : Option (List Bool) → Except Unit (Option (List Bool))
  | none => .error ()
  | some p =>
    match nodeAt t p with
    | some (.node _ _ _ (.node a d c b)) =>
      .ok (some (p ++ true :: leftmostPath (.node a d c b)))
    | some (.node _ _ _ .nil) => .ok (stripUpR p)
    | _ => .error ()   -- dangling position: never happens for a live iterator

/-- `operator--` (lines 364-386).  From `end()`: the maximum of a non-empty
tree, or `invalid_iterator` on an empty one (lines 365-370).  From a node:
the maximum of the left subtree if there is one, else the parent climb;
running past the root throws (line 384). -/
def decPos (t : Tree K V) : Option (List Bool) → Except Unit (List Bool)
  | none =>
    match t with
    | .nil => .error ()
    | .node a d c b => .ok (rightmostPath (.node a d c b))
  | some p =>
    match nodeAt t p with
    | some (.node (.node a d c b) _ _ _) =>
      .ok (p ++ false :: rightmostPath (.node a d c b))
    | some (.node .nil _ _ _) =>
      match stripUpL p with
      | some q => .ok q
      | none => .error ()
    | _ => .error ()

/-- `begin()` (lines 598-601): `end()` for an empty tree, else the leftmost
node. -/
def beginPos (t : Tree K V) : Option (List Bool) :=
  match t with
  | .nil => none
  | .node a d c b => some (leftmostPath (.node a d c b))

/-- The paths of all nodes in in-order. -/
def inorderPaths : Tree K V → List (List Bool)
  | .nil => []
  | .node l _ _ r =>
    (inorderPaths l).map (false :: ·) ++ [] :: (inorderPaths r).map (true :: ·)

/-- One `++` step as a partial function on positions (`none` = `end()`). -/
def stepPos (t : Tree K V) (p : List Bool) : Option (List Bool) :=
  match incPos t (some p) with
  | .ok q => q
  | .error _ => none

/-- The position after `n` increments of `begin()`. -/
def nthPos (t : Tree K V) : Nat → Option (List Bool)
  | 0 => beginPos t
  | n + 1 => (nthPos t n).bind (stepPos t)

/-- The entry stored at a path. -/
def dataAt (t : Tree K V) (p : List Bool) : Option (K × V) :=
  match nodeAt t p with
  | some (.node _ d _ _) => some d
  | _ => none

/-- `at` as a container-state-passing operation: the source (lines 561-571)
performs no write on any path, so the state component is the input map. -/
def atOp (m : MapS K V) (k : K) : MapS K V × Except Unit V :=
  (m, atVal m.tree k)

/-- `operator++` as a container-state-passing operation (lines 335-350 read
the tree but never write it). -/
def incOp (m : MapS K V) (p : Option (List Bool)) :
    MapS K V × Except Unit (Option (List Bool)) :=
  (m, incPos m.tree p)

/-- `operator--` as a container-state-passing operation (lines 364-386). -/
def decOp (m : MapS K V) (p : Option (List Bool)) :
    MapS K V × Except Unit (List Bool) :=
  (m, decPos m.tree p)

/-- The `const` `operator[]` (lines 591-593): its body is `return at(key);`. -/
def constIndexOp (m : MapS K V) (k : K) : MapS K V × Except Unit V :=
  atOp m k

end Iterators

section ListHelpers

variable {K V : Type} [LinearOrder K]

open Tree

/-- Association-list lookup along the in-order sequence. -/
def lookupKV (k : K) : List (K × V) → Option V
  | [] => none
  | d :: l => if k = d.1 then some d.2 else lookupKV k l

/-- The in-order sequence `insertNode` (lines 235-259) produces: the new pair
sits where the descent reaches a null link; an equal key leaves the sequence
unchanged. -/
def insList (k : K) (v : V) : Tree K V → List (K × V)
  | .nil => [(k, v)]
  | .node l d _ r =>
    if k < d.1 then insList k v l ++ d :: inorder r
    else if d.1 < k then inorder l ++ d :: insList k v r
    else inorder l ++ d :: inorder r

/-- Whether the descent of `findNode`/`insertNode` meets an equal key. -/
def foundB : Tree K V → K → Bool
  | .nil, _ => false
  | .node l d _ r, k =>
    if k < d.1 then foundB l k else if d.1 < k then foundB r k else true

/-- The container refines the abstract finite map `f`: in-order keys strictly
ascending, `map_size` counts the entries, and `findNode` agrees with `f`. -/
def Inv (m : MapS K V) (f : K → Option V) : Prop :=
  Sorted m.tree ∧ m.msize = (inorder m.tree).length ∧ ∀ k, findVal m.tree k = f k

end ListHelpers

section Identity

/-!
Node identity.  For the claims about iterator staleness, deep copies and
self-assignment, node addresses matter.  The value slot of a node is
instrumented as a pair `(id, value)`: `new` hands out the next counter value
as the id, exactly once per allocated node, and `deleteNode` frees the node
that carries the erased key (the two-children case of lines 277-292 splices
the successor node, preserving its identity).  A container instance carries
`cid`, its own address, used by the iterator tag check of line 666.
-/

variable {K W : Type} [LinearOrder K]

open Tree

/-- In-order list of the node ids. -/
def ids : Tree K (Nat × W) → List Nat
  | .nil => []
  | .node l d _ r => ids l ++ d.2.1 :: ids r

/-- Pre-order list of the node ids: the order `copy` (lines 212-219)
allocates them (`new` first, then the two recursive calls). -/
def preIds : Tree K (Nat × W) → List Nat
  | .nil => []
  | .node l d _ r => d.2.1 :: (preIds l ++ preIds r)

/-- Post-order list of the node ids: the order `destroy` (lines 205-210)
frees them (both recursive calls, then `delete node`). -/
def postIds : Tree K (Nat × W) → List Nat
  | .nil => []
  | .node l d _ r => postIds l ++ postIds r ++ [d.2.1]

/-- Forget the instrumentation: the observable entries, colors and shape. -/
def stripIds : Tree K (Nat × W) → Tree K W
  | .nil => .nil
  | .node l d c r => .node (stripIds l) (d.1, d.2.2) c (stripIds r)

/-- `copy(node, parent)` (lines 212-219): structurally recursive deep copy
preserving data and color, allocating a fresh node (fresh id) per source
node, pre-order. -/
def copyAlloc : Tree K (Nat × W) → Nat → Tree K (Nat × W) × Nat
  | .nil, n => (.nil, n)
  | .node l d col r, n =>
    let pl := copyAlloc l (n + 1)
    let pr := copyAlloc r pl.2
    (.node pl.1 (d.1, (n, d.2.2)) col pr.1, pr.2)

/-- An allocation-event trace entry: a node freed or a node allocated. -/
inductive Ev where
  | free (i : Nat)
  | alloc (i : Nat)
deriving DecidableEq, Repr

/-- A container instance: its own address `cid` (used by the iterator
ownership check, line 666), the tree, and `map_size`. -/
structure MapI (K W : Type) where
  cid : Nat
  tree : Tree K (Nat × W)
  msize : Nat
deriving DecidableEq, Repr

/-- The copy constructor (lines 529-532): deep copy and the source's
`map_size`. -/
def copyCtor (newCid : Nat) (s : MapI K W) (ctr : Nat) : MapI K W × Nat :=
  let p := copyAlloc s.tree ctr
  (⟨newCid, p.1, s.msize⟩, p.2)

/-- `operator=` (lines 537-546) with its event trace.  `same` embeds the
address comparison `this == &other` of line 538: if it holds the body
returns immediately; otherwise `destroy(root)` frees every old node
(post-order), then `copy` allocates the new tree and `map_size` is taken
from the source. -/
def assignInstr (same : Bool) (dst src : MapI K W) (ctr : Nat) :
    MapI K W × Nat × List Ev :=
  if same then (dst, ctr, [])
  else
    let p := copyAlloc src.tree ctr
    (⟨dst.cid, p.1, src.msize⟩, p.2,
      (postIds dst.tree).map Ev.free ++ (preIds p.1).map Ev.alloc)

/-- `insert` on an instrumented container: a successful insertion consumes
one fresh address. -/
def insertAllocI (m : MapI K W) (ctr : Nat) (k : K) (w : W) : MapI K W × Nat :=
  let p := insGo k (ctr, w) .root m.tree
  (⟨m.cid, p.1, if p.2 then m.msize + 1 else m.msize⟩, if p.2 then ctr + 1 else ctr)

/-- Locate the node with address `i`, if it is still part of the tree. -/
def locById : Ctx K (Nat × W) → Tree K (Nat × W) → Nat →
    Option (Ctx K (Nat × W) × Tree K (Nat × W))
  | _, .nil, _ => none
  | c, .node l d col r, i =>
    if d.2.1 = i then some (c, .node l d col r)
    else
      match locById (.left c d col r) l i with
      | some res => some res
      | none => locById (.right c d col l) r i

/-- `erase(pos)` (lines 665-671) for an iterator `(tag, cur)`: the guard of
line 666 throws `invalid_iterator` (flag `true`, map untouched) exactly when
the tag differs from this container's address or `current == nullptr`.
Otherwise `deleteNode(pos.current)` runs: a stale address — a node already
freed — passes the guard and dereferences freed memory, which is undefined
behaviour in the source; `none` in the first component models that (and a
fix-up crash inside a legitimate `deleteNode`). -/
def eraseInstr (m : MapI K W) (tag : Nat) (cur : Option Nat) :
    Option (MapI K W) × Bool :=
  if tag ≠ m.cid ∨ cur = none then (some m, true)
  else
    match cur with
    | some i =>
      match locById .root m.tree i with
      | some (c, z) =>
        (((deleteLoc c z).tree).map (fun t => ⟨m.cid, t, m.msize - 1⟩), false)
      | none => (none, false)
    | none => (some m, true)

end Identity

section Scenario

/-- The operation sequence that violates the black-height invariant:
after `insert 2, 1, 3, 0` the tree is `2B (1B (0R, ·), 3B)`; erasing `0`
(red leaf) keeps `2B (1B, 3B)`; erasing `1` then removes a black leaf whose
replacement `x` is null, so the guard of line 294 skips `fixDelete` and the
left spine loses a black node. -/
def bugOps : List (Op Nat Nat) :=
  [.ins 2 20, .ins 1 10, .ins 3 30, .ins 0 5, .er 0, .er 1]

/-- The container one step before the bug: `insert 2, 1, 3, 0` then
`erase 0` yield `2B (1B, 3B)` of size 3 (checked in `c2_fixdelete_skipped`). -/
def bugMap5 : MapS Nat Nat :=
  ⟨.node (.node .nil (1, 10) false .nil) (2, 20) false
    (.node .nil (3, 30) false .nil), 3⟩

/-- The position of the key `1` in `bugMap5`: left child of the root. -/
def c2ctx : Ctx Nat Nat :=
  .left .root (2, 20) false (.node .nil (3, 30) false .nil)

/-- The node holding the key `1` in `bugMap5`: a black leaf. -/
def c2node : Tree Nat Nat :=
  .node .nil (1, 10) false .nil

/-- An instrumented two-entry container: `insert (1, 10)` then `insert (2, 20)`
into an empty map with address `7`, allocating node ids `0` and `1`. -/
def staleMap0 : MapI Nat Nat × Nat :=
  insertAllocI (insertAllocI ⟨7, .nil, 0⟩ 0 1 10).1 (insertAllocI ⟨7, .nil, 0⟩ 0 1 10).2 2 20

/-- The same container after `erase(find(1))` through an iterator to node
id `0`: that node is freed, and the iterator `(7, some 0)` becomes stale.
(`c8_stale_not_rejected` checks this is the map the erase produced.) -/
def staleMap1 : MapI Nat Nat :=
  ⟨7, .node .nil (2, (1, 20)) false .nil, 1⟩

/-- The reachable operation sequence on which `erase` crashes: the two
earlier erasures go through the line-294 bug, leaving a tree in which the
black node holding `1` has a null sibling; `erase 4` then walks the delete
fix-up into that null sibling (line 152).  `crashMap` is the container just
before the crashing `erase 4` (checked in `c4_erase_crashes`). -/
def crashOps : List (Op Nat Nat) :=
  [.ins 6 60, .ins 2 20, .ins 1 10, .ins 3 30, .er 2, .er 6,
   .ins 6 61, .ins 4 40, .ins 7 70, .er 3, .er 6]

/-- The container `runOps` reaches after `crashOps` (see `c4_erase_crashes`):
`7B (4B (1B, ·), ·)` — the two skipped fix-ups have already destroyed the
black-height invariant.  Erasing `4` transplants the black node `1` to where
`4` was and runs `fixDelete` on it; its sibling (the right child of `7`) is
null, and line 152 dereferences it. -/
def crashMap : MapS Nat Nat :=
  ⟨.node (.node (.node .nil (1, 10) false .nil) (4, 40) false .nil)
    (7, 70) false .nil, 3⟩

end Scenario

/-! ### In-order content: rotations, plugging, and the fix-up passes -/

section ContentLemmas

variable {K V : Type} [LinearOrder K]

open Tree Ctx

theorem inorder_setBlack (t : Tree K V) : inorder (setBlack t) = inorder t := by
  cases t <;> rfl

theorem inorder_rotateLeft (t : Tree K V) : inorder (rotateLeft t) = inorder t := by
  match t with
  | .nil => rfl
  | .node a xd xc .nil => rfl
  | .node a xd xc (.node b yd yc c) => simp [rotateLeft, inorder, List.append_assoc]

theorem inorder_rotateRight (t : Tree K V) : inorder (rotateRight t) = inorder t := by
  match t with
  | .nil => rfl
  | .node .nil xd xc c => rfl
  | .node (.node a yd yc b) xd xc c => simp [rotateRight, inorder, List.append_assoc]

theorem plug_inorder (c : Ctx K V) (t : Tree K V) :
    inorder (c.plug t) = c.ctxL ++ (inorder t ++ c.ctxR) := by
  induction c generalizing t with
  | root => simp [Ctx.plug, Ctx.ctxL, Ctx.ctxR]
  | left up d col sib ih =>
    simp [Ctx.plug, Ctx.ctxL, Ctx.ctxR, ih, inorder, List.append_assoc]
  | right up d col sib ih =>
    simp [Ctx.plug, Ctx.ctxL, Ctx.ctxR, ih, inorder, List.append_assoc]

theorem fixInsertLoop_inorder (fuel : Nat) (c : Ctx K V) (z : Tree K V) :
    inorder (fixInsertLoop fuel c z) = inorder (c.plug z) := by
  induction fuel generalizing c z with
  | zero => rfl
  | succ fuel ih =>
    cases c with
    | root => rfl
    | left pctx pd pcol psib =>
      cases pcol with
      | false => simp [fixInsertLoop]
      | true =>
        cases pctx with
        | root => simp [fixInsertLoop]
        | left gctx gd gcol uncle =>
          cases uncle with
          | nil =>
            simp [fixInsertLoop, plug_inorder, Ctx.ctxL, Ctx.ctxR, inorder,
              inorder_rotateLeft, inorder_rotateRight, inorder_setBlack, List.append_assoc]
          | node ul ud uc ur =>
            cases uc with
            | true =>
              simp [fixInsertLoop, ih, plug_inorder, Ctx.ctxL, Ctx.ctxR, inorder,
                List.append_assoc]
            | false =>
              simp [fixInsertLoop, plug_inorder, Ctx.ctxL, Ctx.ctxR, inorder,
                inorder_rotateLeft, inorder_rotateRight, inorder_setBlack, List.append_assoc]
        | right gctx gd gcol uncle =>
          cases uncle with
          | nil =>
            simp [fixInsertLoop, plug_inorder, Ctx.ctxL, Ctx.ctxR, inorder,
              inorder_rotateLeft, inorder_rotateRight, inorder_setBlack, List.append_assoc]
          | node ul ud uc ur =>
            cases uc with
            | true =>
              simp [fixInsertLoop, ih, plug_inorder, Ctx.ctxL, Ctx.ctxR, inorder,
                List.append_assoc]
            | false =>
              simp [fixInsertLoop, plug_inorder, Ctx.ctxL, Ctx.ctxR, inorder,
                inorder_rotateLeft, inorder_rotateRight, inorder_setBlack, List.append_assoc]
    | right pctx pd pcol psib =>
      cases pcol with
      | false => simp [fixInsertLoop]
      | true =>
        cases pctx with
        | root => simp [fixInsertLoop]
        | left gctx gd gcol uncle =>
          cases uncle with
          | nil =>
            simp [fixInsertLoop, plug_inorder, Ctx.ctxL, Ctx.ctxR, inorder,
              inorder_rotateLeft, inorder_rotateRight, inorder_setBlack, List.append_assoc]
          | node ul ud uc ur =>
            cases uc with
            | true =>
              simp [fixInsertLoop, ih, plug_inorder, Ctx.ctxL, Ctx.ctxR, inorder,
                List.append_assoc]
            | false =>
              simp [fixInsertLoop, plug_inorder, Ctx.ctxL, Ctx.ctxR, inorder,
                inorder_rotateLeft, inorder_rotateRight, inorder_setBlack, List.append_assoc]
        | right gctx gd gcol uncle =>
          cases uncle with
          | nil =>
            simp [fixInsertLoop, plug_inorder, Ctx.ctxL, Ctx.ctxR, inorder,
              inorder_rotateLeft, inorder_rotateRight, inorder_setBlack, List.append_assoc]
          | node ul ud uc ur =>
            cases uc with
            | true =>
              simp [fixInsertLoop, ih, plug_inorder, Ctx.ctxL, Ctx.ctxR, inorder,
                List.append_assoc]
            | false =>
              simp [fixInsertLoop, plug_inorder, Ctx.ctxL, Ctx.ctxR, inorder,
                inorder_rotateLeft, inorder_rotateRight, inorder_setBlack, List.append_assoc]

theorem fixInsert_inorder (c : Ctx K V) (z : Tree K V) :
    inorder (fixInsert c z) = inorder (c.plug z) := by
  simp [fixInsert, inorder_setBlack, fixInsertLoop_inorder]

theorem fixDeleteCases_inorder (fixLoop : Ctx K V → Tree K V → Option (Tree K V))
    (hfix : ∀ c t u, fixLoop c t = some u → inorder u = inorder (c.plug t))
    (side : Bool) (pctx : Ctx K V) (pd : K × V) (pcol : Bool) (w x : Tree K V) :
    ∀ u, fixDeleteCases fixLoop side pctx pd pcol w x = some u →
      inorder u =
        inorder ((if side then Ctx.right pctx pd pcol w else Ctx.left pctx pd pcol w).plug x) := by
  intro u hu
  cases side with
  | false =>
    cases w with
    | nil => exact absurd hu (by simp [fixDeleteCases])
    | node wl wd wc wr =>
      by_cases hbb : wl.colorOf = false ∧ wr.colorOf = false
      · have hval : fixDeleteCases fixLoop false pctx pd pcol (.node wl wd wc wr) x =
            fixLoop pctx (.node x pd pcol (.node wl wd true wr)) := by
          simp only [fixDeleteCases, Bool.and_eq_true, decide_eq_true_eq]
          rw [if_pos hbb]
        rw [hval] at hu
        rw [hfix _ _ _ hu]
        simp [plug_inorder, Ctx.ctxL, Ctx.ctxR, inorder, List.append_assoc]
      · by_cases hwr : wr.colorOf = false
        · cases wl with
          | nil =>
            have hval : fixDeleteCases fixLoop false pctx pd pcol (.node .nil wd wc wr) x =
                some (setBlack (pctx.plug (rotateLeft
                  (.node x pd false (.node .nil wd pcol (setBlack wr)))))) := by
              simp only [fixDeleteCases, Bool.and_eq_true, decide_eq_true_eq]
              rw [if_neg hbb, if_pos hwr]
              rfl
            rw [hval] at hu
            injection hu with hu
            subst hu
            simp [inorder_setBlack, plug_inorder, inorder_rotateLeft, inorder,
              Ctx.ctxL, Ctx.ctxR, List.append_assoc]
          | node a b c2 d =>
            have hval : fixDeleteCases fixLoop false pctx pd pcol
                (.node (.node a b c2 d) wd wc wr) x =
                some (setBlack (pctx.plug (rotateLeft
                  (.node x pd false (.node a b pcol (setBlack (.node d wd true wr))))))) := by
              simp only [fixDeleteCases, Bool.and_eq_true, decide_eq_true_eq]
              rw [if_neg hbb, if_pos hwr]
              rfl
            rw [hval] at hu
            injection hu with hu
            subst hu
            simp [inorder_setBlack, plug_inorder, inorder_rotateLeft, inorder,
              Ctx.ctxL, Ctx.ctxR, List.append_assoc]
        · have hval : fixDeleteCases fixLoop false pctx pd pcol (.node wl wd wc wr) x =
              some (setBlack (pctx.plug (rotateLeft
                (.node x pd false (.node wl wd pcol (setBlack wr)))))) := by
            simp only [fixDeleteCases, Bool.and_eq_true, decide_eq_true_eq]
            rw [if_neg hbb, if_neg hwr]
          rw [hval] at hu
          injection hu with hu
          subst hu
          simp [inorder_setBlack, plug_inorder, inorder_rotateLeft, inorder,
            Ctx.ctxL, Ctx.ctxR, List.append_assoc]
  | true =>
    cases w with
    | nil => exact absurd hu (by simp [fixDeleteCases])
    | node wl wd wc wr =>
      by_cases hbb : wl.colorOf = false ∧ wr.colorOf = false
      · have hval : fixDeleteCases fixLoop true pctx pd pcol (.node wl wd wc wr) x =
            fixLoop pctx (.node (.node wl wd true wr) pd pcol x) := by
          simp only [fixDeleteCases, Bool.and_eq_true, decide_eq_true_eq]
          rw [if_pos hbb]
        rw [hval] at hu
        rw [hfix _ _ _ hu]
        simp [plug_inorder, Ctx.ctxL, Ctx.ctxR, inorder, List.append_assoc]
      · by_cases hwl : wl.colorOf = false
        · cases wr with
          | nil =>
            have hval : fixDeleteCases fixLoop true pctx pd pcol (.node wl wd wc .nil) x =
                some (setBlack (pctx.plug (rotateRight
                  (.node (.node (setBlack wl) wd pcol .nil) pd false x)))) := by
              simp only [fixDeleteCases, Bool.and_eq_true, decide_eq_true_eq]
              rw [if_neg hbb, if_pos hwl]
              rfl
            rw [hval] at hu
            injection hu with hu
            subst hu
            simp [inorder_setBlack, plug_inorder, inorder_rotateRight, inorder,
              Ctx.ctxL, Ctx.ctxR, List.append_assoc]
          | node a b c2 d =>
            have hval : fixDeleteCases fixLoop true pctx pd pcol
                (.node wl wd wc (.node a b c2 d)) x =
                some (setBlack (pctx.plug (rotateRight
                  (.node (.node (setBlack (.node wl wd true a)) b pcol d) pd false x)))) := by
              simp only [fixDeleteCases, Bool.and_eq_true, decide_eq_true_eq]
              rw [if_neg hbb, if_pos hwl]
              rfl
            rw [hval] at hu
            injection hu with hu
            subst hu
            simp [inorder_setBlack, plug_inorder, inorder_rotateRight, inorder,
              Ctx.ctxL, Ctx.ctxR, List.append_assoc]
        · have hval : fixDeleteCases fixLoop true pctx pd pcol (.node wl wd wc wr) x =
              some (setBlack (pctx.plug (rotateRight
                (.node (.node (setBlack wl) wd pcol wr) pd false x)))) := by
            simp only [fixDeleteCases, Bool.and_eq_true, decide_eq_true_eq]
            rw [if_neg hbb, if_neg hwl]
          rw [hval] at hu
          injection hu with hu
          subst hu
          simp [inorder_setBlack, plug_inorder, inorder_rotateRight, inorder,
            Ctx.ctxL, Ctx.ctxR, List.append_assoc]

theorem fixDeleteLoop_inorder (fuel : Nat) :
    ∀ (c : Ctx K V) (x u : Tree K V), fixDeleteLoop fuel c x = some u →
      inorder u = inorder (c.plug x) := by
  induction fuel with
  | zero =>
    intro c x u hu
    injection hu with hu
    subst hu
    rfl
  | succ fuel ih =>
    intro c x u hu
    cases c with
    | root =>
      cases x with
      | nil =>
        injection hu with hu
        subst hu
        simp [Ctx.plug, inorder_setBlack]
      | node a b xc d =>
        cases xc with
        | true =>
          injection hu with hu
          subst hu
          simp [Ctx.plug, inorder_setBlack]
        | false =>
          injection hu with hu
          subst hu
          simp [Ctx.plug, inorder_setBlack]
    | left pctx pd pcol w =>
      cases x with
      | nil =>
        injection hu with hu
        subst hu
        rfl
      | node a b xc d =>
        cases xc with
        | true =>
          injection hu with hu
          subst hu
          simp [plug_inorder, inorder_setBlack]
        | false =>
          cases w with
          | nil =>
            rw [show fixDeleteLoop (fuel + 1) (.left pctx pd pcol .nil) (.node a b false d) =
                fixDeleteCases (fixDeleteLoop fuel) false pctx pd pcol .nil (.node a b false d) from rfl] at hu
            rw [fixDeleteCases_inorder _ ih false pctx pd pcol .nil (.node a b false d) u hu]
            simp
          | node wl wd wc wr =>
            cases wc with
            | true =>
              rw [show fixDeleteLoop (fuel + 1) (.left pctx pd pcol (.node wl wd true wr)) (.node a b false d) =
                  fixDeleteCases (fixDeleteLoop fuel) false (.left pctx wd false wr) pd true wl (.node a b false d) from rfl] at hu
              rw [fixDeleteCases_inorder _ ih false (.left pctx wd false wr) pd true wl (.node a b false d) u hu]
              simp [plug_inorder, Ctx.ctxL, Ctx.ctxR, inorder, List.append_assoc]
            | false =>
              rw [show fixDeleteLoop (fuel + 1) (.left pctx pd pcol (.node wl wd false wr)) (.node a b false d) =
                  fixDeleteCases (fixDeleteLoop fuel) false pctx pd pcol (.node wl wd false wr) (.node a b false d) from rfl] at hu
              rw [fixDeleteCases_inorder _ ih false pctx pd pcol (.node wl wd false wr) (.node a b false d) u hu]
              simp
    | right pctx pd pcol w =>
      cases x with
      | nil =>
        injection hu with hu
        subst hu
        rfl
      | node a b xc d =>
        cases xc with
        | true =>
          injection hu with hu
          subst hu
          simp [plug_inorder, inorder_setBlack]
        | false =>
          cases w with
          | nil =>
            rw [show fixDeleteLoop (fuel + 1) (.right pctx pd pcol .nil) (.node a b false d) =
                fixDeleteCases (fixDeleteLoop fuel) true pctx pd pcol .nil (.node a b false d) from rfl] at hu
            rw [fixDeleteCases_inorder _ ih true pctx pd pcol .nil (.node a b false d) u hu]
            simp
          | node wl wd wc wr =>
            cases wc with
            | true =>
              rw [show fixDeleteLoop (fuel + 1) (.right pctx pd pcol (.node wl wd true wr)) (.node a b false d) =
                  fixDeleteCases (fixDeleteLoop fuel) true (.right pctx wd false wl) pd true wr (.node a b false d) from rfl] at hu
              rw [fixDeleteCases_inorder _ ih true (.right pctx wd false wl) pd true wr (.node a b false d) u hu]
              simp [plug_inorder, Ctx.ctxL, Ctx.ctxR, inorder, List.append_assoc]
            | false =>
              rw [show fixDeleteLoop (fuel + 1) (.right pctx pd pcol (.node wl wd false wr)) (.node a b false d) =
                  fixDeleteCases (fixDeleteLoop fuel) true pctx pd pcol (.node wl wd false wr) (.node a b false d) from rfl] at hu
              rw [fixDeleteCases_inorder _ ih true pctx pd pcol (.node wl wd false wr) (.node a b false d) u hu]
              simp

theorem fixDelete_inorder (c : Ctx K V) (x : Tree K V) (u : Tree K V)
    (hu : fixDelete c x = some u) : inorder u = inorder (c.plug x) :=
  fixDeleteLoop_inorder (c.depth + 2) c x u hu

theorem minLoc_plug (t : Tree K V) : ∀ c : Ctx K V,
    ((minLoc c t).1).plug (minLoc c t).2 = c.plug t := by
  induction t with
  | nil => intro c; rfl
  | node l d col r ihl ihr =>
    intro c
    cases l with
    | nil => rfl
    | node a d2 c2 b =>
      show ((minLoc (.left c d col r) (.node a d2 c2 b)).1).plug
          ((minLoc (.left c d col r) (.node a d2 c2 b)).2) = _
      rw [ihl]
      rfl

theorem minLoc_ctxL (t : Tree K V) : ∀ c : Ctx K V,
    ((minLoc c t).1).ctxL = c.ctxL := by
  induction t with
  | nil => intro c; rfl
  | node l d col r ihl ihr =>
    intro c
    cases l with
    | nil => rfl
    | node a d2 c2 b =>
      show ((minLoc (.left c d col r) (.node a d2 c2 b)).1).ctxL = _
      rw [ihl]
      rfl

theorem minLoc_snd_left_nil (t : Tree K V) : ∀ c : Ctx K V, t ≠ .nil →
    ∃ yd yc yr, (minLoc c t).2 = .node .nil yd yc yr := by
  induction t with
  | nil => intro c h; exact absurd rfl h
  | node l d col r ihl ihr =>
    intro c _
    cases l with
    | nil => exact ⟨d, col, r, rfl⟩
    | node a d2 c2 b =>
      show ∃ yd yc yr, (minLoc (.left c d col r) (.node a d2 c2 b)).2 = _
      exact ihl _ (by simp)

theorem ctxGraft_plug (o : Ctx K V) (i : Ctx K V) : ∀ t : Tree K V,
    (ctxGraft o i).plug t = o.plug (i.plug t) := by
  induction i generalizing o with
  | root => intro t; rfl
  | left up d col sib ih => intro t; exact ih o (.node t d col sib)
  | right up d col sib ih => intro t; exact ih o (.node sib d col t)

theorem ctxGraft_inorder (o : Ctx K V) (i : Ctx K V) (t : Tree K V) :
    inorder ((ctxGraft o i).plug t) = inorder (o.plug (i.plug t)) := by
  rw [ctxGraft_plug]

/-- `deleteNode` removes exactly the focused node's pair from the in-order
sequence. -/
theorem deleteLoc_inorder (c : Ctx K V) (l : Tree K V) (d : K × V) (col : Bool)
    (r : Tree K V) :
    ∀ u, (deleteLoc c (.node l d col r)).tree = some u →
      inorder u = c.ctxL ++ (inorder l ++ (inorder r ++ c.ctxR)) := by
  intro u hu
  cases l with
  | nil =>
    rw [show (deleteLoc c (.node .nil d col r)).tree =
        (if (!col) && !r.isNil then fixDelete c r else some (c.plug r)) from rfl] at hu
    split at hu
    · rw [fixDelete_inorder c r u hu]
      simp [plug_inorder, inorder, List.append_assoc]
    · injection hu with hu
      subst hu
      simp [plug_inorder, inorder, List.append_assoc]
  | node a d2 c2 b =>
    cases r with
    | nil =>
      rw [show (deleteLoc c (.node (.node a d2 c2 b) d col .nil)).tree =
          (if (!col) && !(Tree.node a d2 c2 b).isNil then fixDelete c (.node a d2 c2 b)
            else some (c.plug (.node a d2 c2 b))) from rfl] at hu
      split at hu
      · rw [fixDelete_inorder c (.node a d2 c2 b) u hu]
        simp [plug_inorder, inorder, List.append_assoc]
      · injection hu with hu
        subst hu
        simp [plug_inorder, inorder, List.append_assoc]
    | node e d3 c3 f =>
      have hmin := minLoc_snd_left_nil (K := K) (V := V) (.node e d3 c3 f) .root (by simp)
      obtain ⟨yd, yc, yr, hy⟩ := hmin
      have hplug := minLoc_plug (K := K) (V := V) (.node e d3 c3 f) .root
      have hctxL := minLoc_ctxL (K := K) (V := V) (.node e d3 c3 f) .root
      rcases hm : minLoc .root (.node e d3 c3 f) with ⟨ic, y⟩
      rw [hm] at hy hplug hctxL
      simp only at hy hplug hctxL
      subst hy
      have hctxL0 : ic.ctxL = [] := hctxL.trans rfl
      have hcontent : inorder (Tree.node .nil yd yc yr) ++ ic.ctxR =
          inorder (Tree.node e d3 c3 f) := by
        have := plug_inorder ic (Tree.node (K := K) (V := V) .nil yd yc yr)
        rw [hplug] at this
        simp only [Ctx.plug] at this
        rw [this, hctxL]
        simp [Ctx.ctxL, Ctx.ctxR]
      cases ic with
      | root =>
        revert hu
        simp only [deleteLoc]
        rw [hm]
        have hzr : inorder (Tree.node e d3 c3 f) = yd :: inorder yr := by
          rw [← hcontent]; simp [inorder, Ctx.ctxR]
        show ((if (!yc) && !yr.isNil then
            fixDelete (.right c yd col (.node a d2 c2 b)) yr
            else some (c.plug (.node (.node a d2 c2 b) yd col yr))) = some u) → _
        rw [hzr]
        intro hu
        split at hu
        · rw [fixDelete_inorder _ _ u hu]
          simp [plug_inorder, inorder, Ctx.ctxL, Ctx.ctxR, List.append_assoc]
        · injection hu with hu
          subst hu
          simp [plug_inorder, inorder, Ctx.ctxL, Ctx.ctxR, List.append_assoc]
      | left up ud ucol usib =>
        revert hu
        simp only [deleteLoc]
        rw [hm]
        have hzr : inorder (Tree.node e d3 c3 f) =
            yd :: (inorder ((Ctx.left up ud ucol usib).plug yr)) := by
          rw [← hcontent]
          simp only [Ctx.ctxL] at hctxL0
          simp [inorder, plug_inorder, hctxL0, Ctx.ctxL, List.append_assoc]
        show ((if (!yc) && !yr.isNil then
            fixDelete (ctxGraft (.right c yd col (.node a d2 c2 b)) (.left up ud ucol usib)) yr
            else some (c.plug (.node (.node a d2 c2 b) yd col
              ((Ctx.left up ud ucol usib).plug yr)))) = some u) → _
        rw [hzr]
        intro hu
        split at hu
        · rw [fixDelete_inorder _ _ u hu]
          simp [ctxGraft_plug, plug_inorder, inorder, Ctx.ctxL, Ctx.ctxR, List.append_assoc]
        · injection hu with hu
          subst hu
          simp [plug_inorder, inorder, Ctx.ctxL, Ctx.ctxR, List.append_assoc]
      | right up ud ucol usib =>
        -- a `minimum` descent only pushes `left` context entries: unreachable
        simp [Ctx.ctxL] at hctxL0

end ContentLemmas

/-! ### Lookup on sorted trees -/

section LookupLemmas

variable {K V : Type} [LinearOrder K]

open Tree Ctx

theorem findLoc_some (t : Tree K V) : ∀ (c c' : Ctx K V) (k : K) (z : Tree K V),
    findLoc c t k = some (c', z) →
    ∃ l dd col r, z = .node l dd col r ∧ dd.1 = k ∧ c'.plug z = c.plug t := by
  induction t with
  | nil => intro c c' k z h; simp [findLoc] at h
  | node l d col r ihl ihr =>
    intro c c' k z h
    by_cases h1 : k < d.1
    · rw [show findLoc c (.node l d col r) k = findLoc (.left c d col r) l k by
        simp [findLoc, h1]] at h
      exact ihl _ _ _ _ h
    · by_cases h2 : d.1 < k
      · rw [show findLoc c (.node l d col r) k = findLoc (.right c d col l) r k by
          simp [findLoc, h1, h2]] at h
        exact ihr _ _ _ _ h
      · rw [show findLoc c (.node l d col r) k = some (c, .node l d col r) by
          simp [findLoc, h1, h2]] at h
        obtain ⟨rfl, rfl⟩ := Prod.mk.injEq .. ▸ Option.some.inj h
        exact ⟨l, d, col, r, rfl, le_antisymm (not_lt.mp h1) (not_lt.mp h2), rfl⟩

theorem findLoc_map_snd (t : Tree K V) : ∀ (c : Ctx K V) (k : K),
    (findLoc c t k).map Prod.snd = findSub t k := by
  induction t with
  | nil => intro c k; rfl
  | node l d col r ihl ihr =>
    intro c k
    by_cases h1 : k < d.1
    · simp [findLoc, findSub, h1, ihl]
    · by_cases h2 : d.1 < k
      · simp [findLoc, findSub, h1, h2, ihr]
      · simp [findLoc, findSub, h1, h2]

theorem findVal_eq_sub (t : Tree K V) (k : K) : findVal t k = findValSub t k := by
  cases h : findLoc Ctx.root t k with
  | none =>
    have h2 : findSub t k = none := by rw [← findLoc_map_snd t Ctx.root k, h]; rfl
    simp [findVal, findValSub, h, h2]
  | some p =>
    have h2 : findSub t k = some p.2 := by rw [← findLoc_map_snd t Ctx.root k, h]; rfl
    rcases p with ⟨c, z⟩
    cases z <;> simp [findVal, findValSub, h, h2]

theorem foundB_eq (t : Tree K V) (k : K) : foundB t k = (findSub t k).isSome := by
  induction t with
  | nil => rfl
  | node l d col r ihl ihr =>
    by_cases h1 : k < d.1
    · simp [foundB, findSub, h1, ihl]
    · by_cases h2 : d.1 < k
      · simp [foundB, findSub, h1, h2, ihr]
      · simp [foundB, findSub, h1, h2]

theorem countK_eq (t : Tree K V) (k : K) :
    countK t k = if (findVal t k).isSome then 1 else 0 := by
  unfold countK findVal
  cases h : findLoc Ctx.root t k with
  | none => simp
  | some p =>
    rcases p with ⟨c, z⟩
    obtain ⟨l2, dd, col2, r2, rfl, _, _⟩ := findLoc_some t Ctx.root c k z h
    simp

theorem sorted_pair (t : Tree K V) :
    Sorted t ↔ List.Pairwise (fun p q : K × V => p.1 < q.1) (inorder t) := by
  unfold Sorted Tree.keys
  rw [List.pairwise_map]

theorem sorted_node_iff (l : Tree K V) (d : K × V) (col : Bool) (r : Tree K V) :
    Sorted (.node l d col r) ↔
      Sorted l ∧ Sorted r ∧ (∀ p ∈ inorder l, p.1 < d.1) ∧
        (∀ q ∈ inorder r, d.1 < q.1) := by
  simp only [sorted_pair, inorder, List.pairwise_append, List.pairwise_cons]
  constructor
  · rintro ⟨hl, ⟨hdr, hr⟩, hcross⟩
    exact ⟨hl, hr, fun p hp => hcross p hp d (List.mem_cons_self d _), hdr⟩
  · rintro ⟨hl, hr, hld, hdr⟩
    refine ⟨hl, ⟨hdr, hr⟩, ?_⟩
    intro a ha b hb
    rcases List.mem_cons.mp hb with rfl | hb2
    · exact hld a ha
    · exact lt_trans (hld a ha) (hdr b hb2)

theorem lookupKV_append (k : K) (A B : List (K × V)) :
    lookupKV k (A ++ B) = match lookupKV k A with
      | some v => some v
      | none => lookupKV k B := by
  induction A with
  | nil => simp [lookupKV]
  | cons p A ih =>
    by_cases h : k = p.1 <;> simp [lookupKV, h, ih]

theorem lookupKV_eq_none (k : K) (A : List (K × V)) (h : ∀ p ∈ A, p.1 ≠ k) :
    lookupKV k A = none := by
  induction A with
  | nil => rfl
  | cons p A ih =>
    have h1 : ¬ (k = p.1) := fun he => h p (by simp) he.symm
    simp only [lookupKV, if_neg h1]
    exact ih (fun q hq => h q (by simp [hq]))

theorem sorted_findValSub (t : Tree K V) (k : K) (hs : Sorted t) :
    findValSub t k = lookupKV k (inorder t) := by
  induction t with
  | nil => rfl
  | node l d col r ihl ihr =>
    obtain ⟨hsl, hsr, hld, hdr⟩ := (sorted_node_iff l d col r).mp hs
    have hio : inorder (Tree.node l d col r) = inorder l ++ (d :: inorder r) := rfl
    by_cases h1 : k < d.1
    · have hBnone : lookupKV k (d :: inorder r) = none := by
        apply lookupKV_eq_none
        intro p hp
        rcases List.mem_cons.mp hp with rfl | hp2
        · exact ne_of_gt h1
        · exact ne_of_gt (lt_trans h1 (hdr p hp2))
      have hred : findValSub (Tree.node l d col r) k = findValSub l k := by
        simp [findValSub, findSub, h1]
      rw [hred, ihl hsl, hio, lookupKV_append]
      cases hA : lookupKV k (inorder l) <;> simp [hBnone]
    · by_cases h2 : d.1 < k
      · have hAnone : lookupKV k (inorder l) = none :=
          lookupKV_eq_none _ _ (fun p hp => ne_of_lt (lt_trans (hld p hp) h2))
        have hred : findValSub (Tree.node l d col r) k = findValSub r k := by
          simp [findValSub, findSub, h1, h2]
        have hkd : ¬ (k = d.1) := fun he => absurd (he ▸ h2) (lt_irrefl k)
        rw [hred, ihr hsr, hio, lookupKV_append, hAnone]
        simp [lookupKV, hkd]
      · have hk : d.1 = k := le_antisymm (not_lt.mp h1) (not_lt.mp h2)
        have hAnone : lookupKV k (inorder l) = none :=
          lookupKV_eq_none _ _ (fun p hp => by rw [← hk]; exact ne_of_lt (hld p hp))
        have hred : findValSub (Tree.node l d col r) k = some d.2 := by
          simp [findValSub, findSub, h1, h2]
        rw [hred, hio, lookupKV_append, hAnone]
        simp [lookupKV, hk.symm]

theorem sorted_findVal (t : Tree K V) (k : K) (hs : Sorted t) :
    findVal t k = lookupKV k (inorder t) := by
  rw [findVal_eq_sub]
  exact sorted_findValSub t k hs

end LookupLemmas

/-! ### Insertion characterization -/

section InsertLemmas

variable {K V : Type} [LinearOrder K]

open Tree Ctx

theorem insGo_inorder (k : K) (v : V) (t : Tree K V) : ∀ c : Ctx K V,
    inorder (insGo k v c t).1 = c.ctxL ++ (insList k v t ++ c.ctxR) := by
  induction t with
  | nil =>
    intro c
    simp [insGo, fixInsert_inorder, plug_inorder, insList, inorder]
  | node l d col r ihl ihr =>
    intro c
    by_cases h1 : k < d.1
    · simp [insGo, h1, ihl, insList, Ctx.ctxL, Ctx.ctxR, inorder, List.append_assoc]
    · by_cases h2 : d.1 < k
      · simp [insGo, h1, h2, ihr, insList, Ctx.ctxL, Ctx.ctxR, inorder, List.append_assoc]
      · simp [insGo, h1, h2, insList, plug_inorder, inorder, List.append_assoc]

theorem insGo_flag (k : K) (v : V) (t : Tree K V) : ∀ c : Ctx K V,
    (insGo k v c t).2 = !(foundB t k) := by
  induction t with
  | nil => intro c; rfl
  | node l d col r ihl ihr =>
    intro c
    by_cases h1 : k < d.1
    · simp [insGo, foundB, h1, ihl]
    · by_cases h2 : d.1 < k
      · simp [insGo, foundB, h1, h2, ihr]
      · simp [insGo, foundB, h1, h2]

theorem insList_decomp (k : K) (v : V) (t : Tree K V) (hs : Sorted t)
    (habs : foundB t k = false) :
    ∃ A B, inorder t = A ++ B ∧ insList k v t = A ++ (k, v) :: B ∧
      (∀ p ∈ A, p.1 < k) ∧ (∀ q ∈ B, k < q.1) := by
  induction t with
  | nil => exact ⟨[], [], rfl, rfl, by simp, by simp⟩
  | node l d col r ihl ihr =>
    obtain ⟨hsl, hsr, hld, hdr⟩ := (sorted_node_iff l d col r).mp hs
    by_cases h1 : k < d.1
    · have hfl : foundB l k = false := by simpa [foundB, h1] using habs
      obtain ⟨A, B, hAB, hIns, hA, hB⟩ := ihl hsl hfl
      refine ⟨A, B ++ d :: inorder r, ?_, ?_, hA, ?_⟩
      · simp [inorder, hAB, List.append_assoc]
      · simp [insList, h1, hIns, List.append_assoc]
      · intro q hq
        rcases List.mem_append.mp hq with hq | hq
        · exact hB q hq
        · rcases List.mem_cons.mp hq with rfl | hq2
          · exact h1
          · exact lt_trans h1 (hdr q hq2)
    · by_cases h2 : d.1 < k
      · have hfr : foundB r k = false := by simpa [foundB, h1, h2] using habs
        obtain ⟨A, B, hAB, hIns, hA, hB⟩ := ihr hsr hfr
        refine ⟨inorder l ++ d :: A, B, ?_, ?_, ?_, hB⟩
        · simp [inorder, hAB, List.append_assoc]
        · simp [insList, h1, h2, hIns, List.append_assoc]
        · intro p hp
          rcases List.mem_append.mp hp with hp | hp
          · exact lt_trans (hld p hp) h2
          · rcases List.mem_cons.mp hp with rfl | hp2
            · exact h2
            · exact hA p hp2
      · exfalso
        have : foundB (Tree.node l d col r) k = true := by simp [foundB, h1, h2]
        rw [habs] at this
        exact Bool.false_ne_true this

theorem pairwise_mid (A B : List (K × V)) (k : K) (v : V)
    (h : List.Pairwise (fun p q : K × V => p.1 < q.1) (A ++ B))
    (hA : ∀ p ∈ A, p.1 < k) (hB : ∀ q ∈ B, k < q.1) :
    List.Pairwise (fun p q : K × V => p.1 < q.1) (A ++ (k, v) :: B) := by
  rw [List.pairwise_append] at h ⊢
  obtain ⟨h1, h2, h3⟩ := h
  refine ⟨h1, ?_, ?_⟩
  · rw [List.pairwise_cons]
    exact ⟨fun q hq => hB q hq, h2⟩
  · intro a ha b hb
    rcases List.mem_cons.mp hb with rfl | hb2
    · exact hA a ha
    · exact h3 a ha b hb2

theorem lookupKV_mid (A B : List (K × V)) (k : K) (v : V) (j : K)
    (hA : ∀ p ∈ A, p.1 < k) :
    lookupKV j (A ++ (k, v) :: B) = if j = k then some v else lookupKV j (A ++ B) := by
  by_cases hj : j = k
  · have hnone : lookupKV j A = none :=
      lookupKV_eq_none _ _ (fun p hp => by rw [hj]; exact ne_of_lt (hA p hp))
    rw [lookupKV_append, hnone]
    simp [lookupKV, hj]
  · rw [lookupKV_append, lookupKV_append]
    cases hA2 : lookupKV j A
    · simp [lookupKV, hj]
    · simp [hj]

end InsertLemmas

/-! ### Refinement: each operation acts on the abstract finite map -/

section InvLemmas

variable {K V : Type} [LinearOrder K]

open Tree Ctx

theorem findSub_isSome_iff_findVal (t : Tree K V) (k : K) :
    (findSub t k).isSome = (findVal t k).isSome := by
  cases h : findLoc Ctx.root t k with
  | none =>
    have h2 : findSub t k = none := by rw [← findLoc_map_snd t Ctx.root k, h]; rfl
    simp [findVal, h, h2]
  | some p =>
    rcases p with ⟨c, z⟩
    have h2 : findSub t k = some z := by rw [← findLoc_map_snd t Ctx.root k, h]; rfl
    obtain ⟨l2, dd, col2, r2, rfl, _, _⟩ := findLoc_some t Ctx.root c k z h
    simp [findVal, h, h2]

theorem insertNodeM_inv (m : MapS K V) (f : K → Option V) (h : Inv m f) (k : K)
    (v : V) (habs : f k = none) :
    Inv (insertNodeM m k v).1 (fun j => if j = k then some v else f j) := by
  obtain ⟨hs, hlen, hlook⟩ := h
  have hfv : findVal m.tree k = none := (hlook k).trans habs
  have hfound : foundB m.tree k = false := by
    rw [foundB_eq, findSub_isSome_iff_findVal, hfv]
    rfl
  have hflag : (insGo k v Ctx.root m.tree).2 = true := by
    rw [insGo_flag, hfound]
    rfl
  obtain ⟨A, B, hAB, hIns, hA, hB⟩ := insList_decomp k v m.tree hs hfound
  have htree : (insertNodeM m k v).1.tree = (insGo k v Ctx.root m.tree).1 := rfl
  have hio : inorder (insGo k v Ctx.root m.tree).1 = A ++ (k, v) :: B := by
    rw [insGo_inorder]
    simp [Ctx.ctxL, Ctx.ctxR, hIns]
  have hpairAB : List.Pairwise (fun p q : K × V => p.1 < q.1) (A ++ B) := by
    rw [← hAB]
    exact (sorted_pair m.tree).mp hs
  have hsorted : Sorted (insertNodeM m k v).1.tree := by
    rw [htree, sorted_pair, hio]
    exact pairwise_mid A B k v hpairAB hA hB
  refine ⟨hsorted, ?_, fun j => ?_⟩
  · have hmsize : (insertNodeM m k v).1.msize = m.msize + 1 := by
      simp [insertNodeM, hflag]
    rw [hmsize, htree, hio, hlen, hAB]
    simp
    omega
  · show findVal (insertNodeM m k v).1.tree j = if j = k then some v else f j
    rw [htree, sorted_findVal _ _ (htree ▸ hsorted), hio,
      lookupKV_mid A B k v j hA]
    by_cases hj : j = k
    · simp [hj]
    · rw [if_neg hj, if_neg hj, ← hAB, ← sorted_findVal _ _ hs, hlook j]

theorem insertOp_inv (m : MapS K V) (f : K → Option V) (h : Inv m f) (k : K)
    (v : V) : Inv (insertOp m k v).1 (modelStep f (.ins k v)) := by
  cases hL : findLoc Ctx.root m.tree k with
  | some p =>
    obtain ⟨hs, hlen, hlook⟩ := h
    rcases p with ⟨c, z⟩
    obtain ⟨l2, dd, col2, r2, rfl, hk, hp⟩ := findLoc_some m.tree Ctx.root c k _ hL
    have hred : (insertOp m k v).1 = m := by simp [insertOp, hL]
    rw [hred]
    have hfk : f k = some dd.2 := by rw [← hlook k]; simp [findVal, hL]
    refine ⟨hs, hlen, fun j => ?_⟩
    simp only [modelStep]
    by_cases hj : j = k
    · subst hj
      rw [hlook j, hfk]
      simp
    · simp [hj, hlook j]
  | none =>
    have hfk : f k = none := by rw [← (h.2.2) k]; simp [findVal, hL]
    have hred : (insertOp m k v).1 = (insertNodeM m k v).1 := by simp [insertOp, hL]
    have hmodel : modelStep f (.ins k v) = fun j => if j = k then some v else f j := by
      funext j
      simp [modelStep, hfk]
    rw [hred, hmodel]
    exact insertNodeM_inv m f h k v hfk

theorem eraseKey_inv (m : MapS K V) (f : K → Option V) (h : Inv m f) (k : K)
    (m2 : MapS K V) (hm2 : eraseKey m k = some m2) :
    Inv m2 (modelStep f (.er k)) := by
  obtain ⟨hs, hlen, hlook⟩ := h
  cases hL : findLoc Ctx.root m.tree k with
  | none =>
    have hfk : f k = none := by rw [← hlook k]; simp [findVal, hL]
    have hred : eraseKey m k = some m := by simp [eraseKey, hL]
    rw [hred] at hm2
    injection hm2 with hm2
    subst hm2
    refine ⟨hs, hlen, fun j => ?_⟩
    simp only [modelStep]
    by_cases hj : j = k
    · subst hj
      rw [hlook j, hfk]
      simp
    · simp [hj, hlook j]
  | some p =>
    rcases p with ⟨c, z⟩
    obtain ⟨l2, dd, col2, r2, rfl, hk, hp⟩ := findLoc_some m.tree Ctx.root c k _ hL
    have hp2 : c.plug (.node l2 dd col2 r2) = m.tree := hp
    rw [show eraseKey m k =
        (match (deleteLoc c (.node l2 dd col2 r2)).tree with
          | some t => some (⟨t, m.msize - 1⟩ : MapS K V)
          | none => none) from by simp [eraseKey, hL]] at hm2
    cases ht : (deleteLoc c (.node l2 dd col2 r2)).tree with
    | none =>
      rw [ht] at hm2
      exact Option.noConfusion hm2
    | some t =>
      rw [ht] at hm2
      injection hm2 with hm2
      subst hm2
      have hio : inorder t =
          (c.ctxL ++ inorder l2) ++ (inorder r2 ++ c.ctxR) := by
        rw [deleteLoc_inorder c l2 dd col2 r2 t ht]
        simp [List.append_assoc]
      have hioT : inorder m.tree =
          (c.ctxL ++ inorder l2) ++ dd :: (inorder r2 ++ c.ctxR) := by
        rw [← hp2, plug_inorder]
        simp [inorder, List.append_assoc]
      have hpair : List.Pairwise (fun p q : K × V => p.1 < q.1)
          ((c.ctxL ++ inorder l2) ++ dd :: (inorder r2 ++ c.ctxR)) := by
        rw [← hioT]
        exact (sorted_pair m.tree).mp hs
      obtain ⟨hpA, hpdB, hcross⟩ := List.pairwise_append.mp hpair
      obtain ⟨hdB, hpB⟩ := List.pairwise_cons.mp hpdB
      have hA : ∀ p ∈ c.ctxL ++ inorder l2, p.1 < k := by
        intro p hpm
        rw [← hk]
        exact hcross p hpm dd (List.mem_cons_self dd _)
      have hB : ∀ q ∈ inorder r2 ++ c.ctxR, k < q.1 := by
        intro q hq
        rw [← hk]
        exact hdB q hq
      have hsub : List.Sublist ((c.ctxL ++ inorder l2) ++ (inorder r2 ++ c.ctxR))
          ((c.ctxL ++ inorder l2) ++ dd :: (inorder r2 ++ c.ctxR)) :=
        (List.sublist_cons_self dd (inorder r2 ++ c.ctxR)).append_left _
      have hsorted : Sorted t := by
        rw [sorted_pair, hio]
        exact hpair.sublist hsub
      refine ⟨hsorted, ?_, fun j => ?_⟩
      · show m.msize - 1 = _
        rw [hio, hlen, hioT]
        simp [List.length_append]
        omega
      · show findVal t j = _
        rw [sorted_findVal _ _ hsorted, hio]
        simp only [modelStep]
        by_cases hj : j = k
        · rw [if_pos hj]
          apply lookupKV_eq_none
          intro p hpm
          rcases List.mem_append.mp hpm with hpm | hpm
          · rw [hj]; exact ne_of_lt (hA p hpm)
          · rw [hj]; exact ne_of_gt (hB p hpm)
        · rw [if_neg hj, ← hlook j, sorted_findVal _ _ hs, hioT]
          have hdd : ((k : K), dd.2) = dd := by
            ext
            · exact hk.symm
            · rfl
          rw [← hdd, lookupKV_mid _ _ k dd.2 j hA, if_neg hj]

theorem opIndex_inv (dflt : V) (m : MapS K V) (f : K → Option V) (h : Inv m f)
    (k : K) :
    ∃ f1, Inv (opIndex dflt m k).1 f1 ∧ (f1 k).isSome = true ∧
      ∀ j, j ≠ k → f1 j = f j := by
  cases hL : findLoc Ctx.root m.tree k with
  | some p =>
    rcases p with ⟨c, z⟩
    obtain ⟨l2, dd, col2, r2, rfl, hk, hp⟩ := findLoc_some m.tree Ctx.root c k _ hL
    have hred : (opIndex dflt m k).1 = m := by simp [opIndex, hL]
    have hfk : f k = some dd.2 := by rw [← (h.2.2) k]; simp [findVal, hL]
    exact ⟨f, hred.symm ▸ h, by rw [hfk]; rfl, fun j _ => rfl⟩
  | none =>
    have hfk : f k = none := by rw [← (h.2.2) k]; simp [findVal, hL]
    have hred : (opIndex dflt m k).1 = (insertNodeM m k dflt).1 := by
      simp [opIndex, hL]
    refine ⟨fun j => if j = k then some dflt else f j, ?_, by simp, fun j hj => by simp [hj]⟩
    rw [hred]
    exact insertNodeM_inv m f h k dflt hfk

theorem setVal_spec (t : Tree K V) (f1 : K → Option V) (hs : Sorted t)
    (hlook : ∀ j, findVal t j = f1 j) (k : K) (v : V)
    (hk : (f1 k).isSome = true) :
    Sorted (setVal t k v) ∧
      (inorder (setVal t k v)).length = (inorder t).length ∧
      ∀ j, findVal (setVal t k v) j = if j = k then some v else f1 j := by
  have hfv : (findVal t k).isSome = true := by rw [hlook k]; exact hk
  cases hL : findLoc Ctx.root t k with
  | none => simp [findVal, hL] at hfv
  | some p =>
    rcases p with ⟨c, z⟩
    obtain ⟨l2, dd, col2, r2, rfl, hkdd, hp⟩ := findLoc_some t Ctx.root c k _ hL
    have hp2 : c.plug (.node l2 dd col2 r2) = t := hp
    have hsv : setVal t k v = c.plug (.node l2 (dd.1, v) col2 r2) := by
      simp [setVal, hL]
    have hioT : inorder t = (c.ctxL ++ inorder l2) ++ dd :: (inorder r2 ++ c.ctxR) := by
      rw [← hp2, plug_inorder]
      simp [inorder, List.append_assoc]
    have hioS : inorder (setVal t k v) =
        (c.ctxL ++ inorder l2) ++ (k, v) :: (inorder r2 ++ c.ctxR) := by
      rw [hsv, plug_inorder, hkdd]
      simp [inorder, List.append_assoc]
    have hpair : List.Pairwise (fun p q : K × V => p.1 < q.1)
        ((c.ctxL ++ inorder l2) ++ dd :: (inorder r2 ++ c.ctxR)) := by
      rw [← hioT]
      exact (sorted_pair t).mp hs
    obtain ⟨hpA, hpdB, hcross⟩ := List.pairwise_append.mp hpair
    obtain ⟨hdB, hpB⟩ := List.pairwise_cons.mp hpdB
    have hA : ∀ p ∈ c.ctxL ++ inorder l2, p.1 < k := by
      intro p hpm
      rw [← hkdd]
      exact hcross p hpm dd (List.mem_cons_self dd _)
    have hB : ∀ q ∈ inorder r2 ++ c.ctxR, k < q.1 := by
      intro q hq
      rw [← hkdd]
      exact hdB q hq
    have hpairAB : List.Pairwise (fun p q : K × V => p.1 < q.1)
        ((c.ctxL ++ inorder l2) ++ (inorder r2 ++ c.ctxR)) :=
      hpair.sublist ((List.sublist_cons_self dd (inorder r2 ++ c.ctxR)).append_left _)
    have hsorted : Sorted (setVal t k v) := by
      rw [sorted_pair, hioS]
      exact pairwise_mid _ _ k v hpairAB hA hB
    refine ⟨hsorted, ?_, fun j => ?_⟩
    · rw [hioS, hioT]
      simp [List.length_append]
    · rw [sorted_findVal _ _ hsorted, hioS, lookupKV_mid _ _ k v j hA]
      by_cases hj : j = k
      · simp [hj]
      · rw [if_neg hj, if_neg hj, ← hlook j, sorted_findVal _ _ hs, hioT]
        have hdd : ((k : K), dd.2) = dd := by
          ext
          · exact hkdd.symm
          · rfl
        rw [← hdd, lookupKV_mid _ _ k dd.2 j hA, if_neg hj]

theorem idxAssign_inv (dflt : V) (m : MapS K V) (f : K → Option V) (h : Inv m f)
    (k : K) (v : V) :
    Inv (opIndexAssign dflt m k v) (modelStep f (.idx k v)) := by
  obtain ⟨f1, hInv1, hk1, hagree⟩ := opIndex_inv dflt m f h k
  obtain ⟨hs1, hlen1, hlook1⟩ := hInv1
  obtain ⟨hs2, hlen2, hlook2⟩ := setVal_spec (opIndex dflt m k).1.tree f1 hs1 hlook1 k v hk1
  refine ⟨hs2, ?_, fun j => ?_⟩
  · show (opIndex dflt m k).1.msize = _
    rw [hlen1]
    exact hlen2.symm
  · rw [show (opIndexAssign dflt m k v).tree = setVal (opIndex dflt m k).1.tree k v
      from rfl, hlook2 j]
    simp only [modelStep]
    by_cases hj : j = k
    · simp [hj]
    · rw [if_neg hj, if_neg hj]
      exact hagree j hj

theorem runOp_inv (dflt : V) (m : MapS K V) (f : K → Option V) (h : Inv m f)
    (op : Op K V) (m2 : MapS K V) (hm2 : runOp dflt m op = some m2) :
    Inv m2 (modelStep f op) := by
  cases op with
  | ins k v =>
    injection hm2 with hm2
    subst hm2
    exact insertOp_inv m f h k v
  | idx k v =>
    injection hm2 with hm2
    subst hm2
    exact idxAssign_inv dflt m f h k v
  | er k => exact eraseKey_inv m f h k m2 hm2

theorem runOpsGo_inv (dflt : V) (ops : List (Op K V)) :
    ∀ (m : MapS K V) (f : K → Option V), Inv m f →
      ∀ m2, runOpsGo dflt m ops = some m2 →
        Inv m2 (ops.foldl modelStep f) := by
  induction ops with
  | nil =>
    intro m f h m2 hm2
    injection hm2 with hm2
    subst hm2
    exact h
  | cons op ops ih =>
    intro m f h m2 hm2
    rw [show runOpsGo dflt m (op :: ops) =
        (match runOp dflt m op with
          | none => none
          | some m3 => runOpsGo dflt m3 ops) from rfl] at hm2
    cases hop : runOp dflt m op with
    | none =>
      rw [hop] at hm2
      exact Option.noConfusion hm2
    | some m3 =>
      rw [hop] at hm2
      exact ih m3 _ (runOp_inv dflt m f h op m3 hop) m2 hm2

/-- Every container an operation history actually constructs — the run
completed without a crash — refines the abstract map of its history. -/
theorem runOps_inv (dflt : V) (ops : List (Op K V)) (m : MapS K V)
    (hm : runOps dflt ops = some m) : Inv m (modelRun ops) := by
  have base : Inv (⟨.nil, 0⟩ : MapS K V) (fun _ => none) :=
    ⟨by simp [Sorted, Tree.keys, inorder], by simp [inorder], fun k => rfl⟩
  exact runOpsGo_inv dflt ops _ _ base m hm

end InvLemmas

/-! ### Iterators: the successor walk enumerates the in-order sequence -/

section IterLemmas

variable {K V : Type} [LinearOrder K]

open Tree Ctx

theorem inorderPaths_ne_nil (l : Tree K V) (d : K × V) (c : Bool) (r : Tree K V) :
    inorderPaths (.node l d c r) ≠ [] := by
  simp [inorderPaths]

theorem mem_inorderPaths (t : Tree K V) : ∀ p ∈ inorderPaths t,
    ∃ l2 d2 c2 r2, nodeAt t p = some (.node l2 d2 c2 r2) := by
  induction t with
  | nil => simp [inorderPaths]
  | node l d c r ihl ihr =>
    intro p hp
    simp only [inorderPaths, List.mem_append, List.mem_cons, List.mem_map] at hp
    rcases hp with (⟨q, hq, rfl⟩ | rfl | ⟨q, hq, rfl⟩)
    · exact ihl q hq
    · exact ⟨l, d, c, r, rfl⟩
    · exact ihr q hq

theorem inorderPaths_head (t : Tree K V) (ht : t ≠ .nil) :
    (inorderPaths t).head? = some (leftmostPath t) := by
  induction t with
  | nil => exact absurd rfl ht
  | node l d c r ihl ihr =>
    cases l with
    | nil => simp [inorderPaths, leftmostPath]
    | node a b c2 e =>
      cases hI : inorderPaths (Tree.node a b c2 e) with
      | nil => exact absurd hI (inorderPaths_ne_nil a b c2 e)
      | cons q Q =>
        have hq : q = leftmostPath (Tree.node a b c2 e) := by
          have := ihl (by simp)
          rw [hI] at this
          simpa using this
        subst hq
        show ((inorderPaths (Tree.node a b c2 e)).map (false :: ·) ++
            [] :: (inorderPaths r).map (true :: ·)).head? =
          some (false :: leftmostPath (Tree.node a b c2 e))
        rw [hI]
        rfl

theorem beginPos_eq_head (t : Tree K V) :
    beginPos t = (inorderPaths t).head? := by
  cases t with
  | nil => rfl
  | node l d c r =>
    rw [inorderPaths_head _ (by simp)]
    rfl

theorem inorderPaths_length (t : Tree K V) :
    (inorderPaths t).length = (inorder t).length := by
  induction t with
  | nil => rfl
  | node l d c r ihl ihr => simp [inorderPaths, inorder, ihl, ihr]

theorem dataAt_paths (t : Tree K V) :
    (inorderPaths t).map (dataAt t) = (inorder t).map some := by
  induction t with
  | nil => rfl
  | node l d c r ihl ihr =>
    have hL : ∀ p, dataAt (Tree.node l d c r) (false :: p) = dataAt l p := fun p => rfl
    have hR : ∀ p, dataAt (Tree.node l d c r) (true :: p) = dataAt r p := fun p => rfl
    simp only [inorderPaths, inorder, List.map_append, List.map_cons, List.map_map]
    rw [show (dataAt (Tree.node l d c r)) ∘ (false :: ·) = dataAt l from funext hL,
      show (dataAt (Tree.node l d c r)) ∘ (true :: ·) = dataAt r from funext hR,
      ihl, ihr]
    rfl

theorem stepPos_of_right (t : Tree K V) (p : List Bool) (l2 : Tree K V) (d2 : K × V)
    (c2 : Bool) (a : Tree K V) (b : K × V) (c3 : Bool) (e : Tree K V)
    (h : nodeAt t p = some (.node l2 d2 c2 (.node a b c3 e))) :
    stepPos t p = some (p ++ true :: leftmostPath (.node a b c3 e)) := by
  simp [stepPos, incPos, h]

theorem stepPos_of_noright (t : Tree K V) (p : List Bool) (l2 : Tree K V) (d2 : K × V)
    (c2 : Bool) (h : nodeAt t p = some (.node l2 d2 c2 .nil)) :
    stepPos t p = stripUpR p := by
  simp [stepPos, incPos, h]

theorem stepPos_left_lift (l : Tree K V) (d : K × V) (c : Bool) (r : Tree K V)
    (p : List Bool) (hp : p ∈ inorderPaths l) :
    stepPos (.node l d c r) (false :: p) =
      match stepPos l p with
      | some q => some (false :: q)
      | none => some [] := by
  obtain ⟨l2, d2, c2, r2, hAt⟩ := mem_inorderPaths l p hp
  have hAt2 : nodeAt (Tree.node l d c r) (false :: p) = some (.node l2 d2 c2 r2) := hAt
  cases r2 with
  | node a b c3 e =>
    rw [stepPos_of_right l p l2 d2 c2 a b c3 e hAt,
      stepPos_of_right (Tree.node l d c r) (false :: p) l2 d2 c2 a b c3 e hAt2]
    rfl
  | nil =>
    rw [stepPos_of_noright l p l2 d2 c2 hAt,
      stepPos_of_noright (Tree.node l d c r) (false :: p) l2 d2 c2 hAt2]
    show stripUpR (false :: p) = _
    simp only [stripUpR]

theorem stepPos_right_lift (l : Tree K V) (d : K × V) (c : Bool) (r : Tree K V)
    (p : List Bool) (hp : p ∈ inorderPaths r) :
    stepPos (.node l d c r) (true :: p) =
      match stepPos r p with
      | some q => some (true :: q)
      | none => none := by
  obtain ⟨l2, d2, c2, r2, hAt⟩ := mem_inorderPaths r p hp
  have hAt2 : nodeAt (Tree.node l d c r) (true :: p) = some (.node l2 d2 c2 r2) := hAt
  cases r2 with
  | node a b c3 e =>
    rw [stepPos_of_right r p l2 d2 c2 a b c3 e hAt,
      stepPos_of_right (Tree.node l d c r) (true :: p) l2 d2 c2 a b c3 e hAt2]
    rfl
  | nil =>
    rw [stepPos_of_noright r p l2 d2 c2 hAt,
      stepPos_of_noright (Tree.node l d c r) (true :: p) l2 d2 c2 hAt2]
    show stripUpR (true :: p) = _
    simp only [stripUpR]

/-- The `++` step maps the in-order path sequence to its own shift: each
position steps to the next one, and the last position steps to `end()`. -/
theorem succ_shift (t : Tree K V) (ht : t ≠ .nil) :
    (inorderPaths t).map (stepPos t) = ((inorderPaths t).tail.map some) ++ [none] := by
  induction t with
  | nil => exact absurd rfl ht
  | node l d c r ihl ihr =>
    have hLseg : ((inorderPaths l).map (false :: ·)).map (stepPos (Tree.node l d c r)) =
        ((inorderPaths l).map (stepPos l)).map
          (fun o => match o with
            | some q => some (false :: q)
            | none => some ([] : List Bool)) := by
      rw [List.map_map, List.map_map]
      exact List.map_congr_left (fun p hp => stepPos_left_lift l d c r p hp)
    have hRseg : ((inorderPaths r).map (true :: ·)).map (stepPos (Tree.node l d c r)) =
        ((inorderPaths r).map (stepPos r)).map
          (fun o => match o with
            | some q => some (true :: q)
            | none => (none : Option (List Bool))) := by
      rw [List.map_map, List.map_map]
      exact List.map_congr_left (fun p hp => stepPos_right_lift l d c r p hp)
    show ((inorderPaths l).map (false :: ·) ++
        [] :: (inorderPaths r).map (true :: ·)).map (stepPos (Tree.node l d c r)) =
      (((inorderPaths l).map (false :: ·) ++
        [] :: (inorderPaths r).map (true :: ·)).tail.map some) ++ [none]
    rw [List.map_append, List.map_cons, hLseg, hRseg]
    cases r with
    | nil =>
      have hmid : stepPos (Tree.node l d c .nil) [] = none := by
        have := stepPos_of_noright (Tree.node l d c .nil) [] l d c rfl
        rw [this]
        rfl
      cases l with
      | nil => simp [inorderPaths, hmid]
      | node la lb lc le =>
        obtain ⟨q1, Q1, hI1⟩ : ∃ q Q, inorderPaths (Tree.node la lb lc le) = q :: Q := by
          cases hI : inorderPaths (Tree.node la lb lc le) with
          | nil => exact absurd hI (inorderPaths_ne_nil la lb lc le)
          | cons q Q => exact ⟨q, Q, rfl⟩
        have hih := ihl (by simp)
        rw [hI1] at hih ⊢
        rw [hih]
        simp [inorderPaths, hmid, List.map_map, List.map_append, Function.comp_def]
    | node ra rb rc re =>
      have hmid : stepPos (Tree.node l d c (.node ra rb rc re)) [] =
          some (true :: leftmostPath (.node ra rb rc re)) := by
        have := stepPos_of_right (Tree.node l d c (.node ra rb rc re)) [] l d c
          ra rb rc re rfl
        rw [this]
        rfl
      obtain ⟨q2, Q2, hI2⟩ : ∃ q Q, inorderPaths (Tree.node ra rb rc re) = q :: Q := by
        cases hI : inorderPaths (Tree.node ra rb rc re) with
        | nil => exact absurd hI (inorderPaths_ne_nil ra rb rc re)
        | cons q Q => exact ⟨q, Q, rfl⟩
      have hq2 : q2 = leftmostPath (Tree.node ra rb rc re) := by
        have := inorderPaths_head (Tree.node ra rb rc re) (by simp)
        rw [hI2] at this
        simpa using this
      have hihr := ihr (by simp)
      rw [hI2] at hihr ⊢
      rw [hihr]
      cases l with
      | nil => simp [inorderPaths, hmid, hq2, List.map_map, List.map_append, Function.comp_def]
      | node la lb lc le =>
        obtain ⟨q1, Q1, hI1⟩ : ∃ q Q, inorderPaths (Tree.node la lb lc le) = q :: Q := by
          cases hI : inorderPaths (Tree.node la lb lc le) with
          | nil => exact absurd hI (inorderPaths_ne_nil la lb lc le)
          | cons q Q => exact ⟨q, Q, rfl⟩
        have hihl := ihl (by simp)
        rw [hI1] at hihl ⊢
        rw [hihl]
        simp [inorderPaths, hmid, hq2, List.map_map, List.map_append, Function.comp_def]

theorem iterate_of_map_shift {α : Type} (L : List α) (f : α → Option α)
    (hm : L.map f = (L.tail.map some) ++ [none]) :
    ∀ i p, L.get? i = some p → f p = L.get? (i + 1) := by
  intro i p hp
  cases L with
  | nil => simp at hp
  | cons x L =>
    have h1 : ((x :: L).map f).get? i = some (f p) := by
      rw [List.get?_map, hp]
      rfl
    rw [hm] at h1
    simp only [List.tail_cons] at h1
    show f p = L.get? i
    by_cases hi : i < L.length
    · rw [List.get?_append (by simpa using hi), List.get?_map] at h1
      cases h3 : L.get? i with
      | none => rw [h3] at h1; simp at h1
      | some q =>
        rw [h3] at h1
        simp at h1
        exact h1.symm
    · have hiL : i < L.length + 1 := by
        by_contra hc
        rw [List.get?_eq_none.mpr (by simpa using le_of_not_lt hc)] at hp
        exact Option.noConfusion hp
      have hieq : i = L.length := by omega
      have h4 : ((L.map some) ++ [none]).get? i = some none := by
        rw [hieq, List.get?_append_right (by simp)]
        simp
      rw [h4] at h1
      have h5 : f p = none := (Option.some.inj h1).symm
      rw [h5, List.get?_eq_none.mpr (by omega)]

theorem nthPos_eq (t : Tree K V) : ∀ i, nthPos t i = (inorderPaths t).get? i := by
  intro i
  induction i with
  | zero =>
    show beginPos t = _
    rw [beginPos_eq_head, List.get?_zero]
  | succ i ih =>
    show (nthPos t i).bind (stepPos t) = _
    rw [ih]
    cases hgi : (inorderPaths t).get? i with
    | none =>
      have h2 : (inorderPaths t).get? (i + 1) = none :=
        List.get?_eq_none.mpr (le_trans (List.get?_eq_none.mp hgi) (by omega))
      rw [h2]
      rfl
    | some p =>
      have ht : t ≠ .nil := by
        intro he
        subst he
        simp [inorderPaths] at hgi
      have hstep := iterate_of_map_shift _ _ (succ_shift t ht) i p hgi
      simp [hstep]

theorem inorder_ne_nil (l : Tree K V) (d : K × V) (c : Bool) (r : Tree K V) :
    inorder (.node l d c r) ≠ [] := by
  simp [inorder]

theorem rightmost_data (t : Tree K V) (ht : t ≠ .nil) :
    dataAt t (rightmostPath t) = (inorder t).getLast? := by
  induction t with
  | nil => exact absurd rfl ht
  | node l d c r ihl ihr =>
    cases r with
    | nil =>
      show dataAt (Tree.node l d c .nil) [] = _
      rw [show inorder (Tree.node l d c .nil) = inorder l ++ [d] from rfl,
        List.getLast?_concat]
      rfl
    | node ra rb rc re =>
      have h1 : dataAt (Tree.node l d c (.node ra rb rc re))
          (rightmostPath (Tree.node l d c (.node ra rb rc re))) =
          dataAt (Tree.node ra rb rc re) (rightmostPath (Tree.node ra rb rc re)) := rfl
      rw [h1, ihr (by simp),
        show inorder (Tree.node l d c (.node ra rb rc re)) =
          inorder l ++ d :: inorder (Tree.node ra rb rc re) from rfl,
        List.getLast?_append_cons]
      cases hIr : inorder (Tree.node ra rb rc re) with
      | nil => exact absurd hIr (inorder_ne_nil ra rb rc re)
      | cons x xs => rfl

theorem pairwise_le_getLast (L : List K) (h : List.Pairwise (· < ·) L) :
    ∀ x ∈ L, ∀ y, L.getLast? = some y → x ≤ y := by
  induction L with
  | nil => simp
  | cons a L ih =>
    intro x hx y hy
    obtain ⟨ha, hL⟩ := List.pairwise_cons.mp h
    cases L with
    | nil =>
      have hxa : x = a := by simpa using hx
      have hya : y = a := by
        have h0 : ([a] : List K).getLast? = some a := rfl
        rw [h0] at hy
        exact (Option.some.inj hy).symm
      rw [hxa, hya]
    | cons b L2 =>
      rw [show (a :: b :: L2).getLast? = (b :: L2).getLast? from rfl] at hy
      rcases List.mem_cons.mp hx with rfl | hx2
      · have hymem : y ∈ b :: L2 := by
          obtain ⟨hne, heq⟩ := List.mem_getLast?_eq_getLast hy
          exact heq ▸ List.getLast_mem hne
        exact le_of_lt (ha y hymem)
      · exact ih hL x hx2 y hy

theorem leftmost_nodeAt (t : Tree K V) (ht : t ≠ .nil) :
    ∃ d2 c2 r2, nodeAt t (leftmostPath t) = some (.node .nil d2 c2 r2) := by
  induction t with
  | nil => exact absurd rfl ht
  | node l d c r ihl ihr =>
    cases l with
    | nil => exact ⟨d, c, r, rfl⟩
    | node a b c2 e => exact ihl (by simp)

theorem stripUpL_leftmost (t : Tree K V) : stripUpL (leftmostPath t) = none := by
  induction t with
  | nil => rfl
  | node l d c r ihl ihr =>
    cases l with
    | nil => rfl
    | node a b c2 e =>
      show stripUpL (false :: leftmostPath (Tree.node a b c2 e)) = none
      simp only [stripUpL]
      rw [ihl]

/-- `--begin()` throws on every container: on an empty tree the root is null
(line 367), on a non-empty one the climb from the leftmost node runs past
the root (line 384). -/
theorem decPos_begin (t : Tree K V) : decPos t (beginPos t) = .error () := by
  cases t with
  | nil => rfl
  | node l d c r =>
    show decPos (Tree.node l d c r) (some (leftmostPath (Tree.node l d c r))) = _
    obtain ⟨d2, c2, r2, hAt⟩ := leftmost_nodeAt (Tree.node l d c r) (by simp)
    simp only [decPos, hAt, stripUpL_leftmost]

theorem atVal_absent (t : Tree K V) (k : K) (h : findVal t k = none) :
    atVal t k = .error () := by
  cases hL : findLoc Ctx.root t k with
  | none => simp [atVal, hL]
  | some p =>
    rcases p with ⟨c, z⟩
    obtain ⟨l2, dd, col2, r2, rfl, _, _⟩ := findLoc_some t Ctx.root c k z hL
    simp [findVal, hL] at h

end IterLemmas

/-! ### Deep copy and allocation instrumentation -/

section CopyLemmas

variable {K W : Type} [LinearOrder K]

open Tree

theorem copyAlloc_strip (t : Tree K (Nat × W)) : ∀ n : Nat,
    stripIds (copyAlloc t n).1 = stripIds t := by
  induction t with
  | nil => intro n; rfl
  | node l d col r ihl ihr =>
    intro n
    simp [copyAlloc, stripIds, ihl, ihr]

theorem copyAlloc_ctr_le (t : Tree K (Nat × W)) : ∀ n : Nat,
    n ≤ (copyAlloc t n).2 := by
  induction t with
  | nil => intro n; exact le_refl n
  | node l d col r ihl ihr =>
    intro n
    calc n ≤ n + 1 := by omega
    _ ≤ (copyAlloc l (n + 1)).2 := ihl (n + 1)
    _ ≤ (copyAlloc r (copyAlloc l (n + 1)).2).2 := ihr _
    _ = (copyAlloc (Tree.node l d col r) n).2 := rfl

theorem copyAlloc_ids_ge (t : Tree K (Nat × W)) : ∀ (n : Nat) (i : Nat),
    i ∈ ids (copyAlloc t n).1 → n ≤ i := by
  induction t with
  | nil => intro n i h; simp [copyAlloc, ids] at h
  | node l d col r ihl ihr =>
    intro n i h
    have hred : (copyAlloc (Tree.node l d col r) n).1 =
        .node (copyAlloc l (n + 1)).1 (d.1, (n, d.2.2)) col
          (copyAlloc r (copyAlloc l (n + 1)).2).1 := rfl
    rw [hred] at h
    simp only [ids, List.mem_append, List.mem_cons] at h
    rcases h with h | h | h
    · have := ihl (n + 1) i h
      omega
    · omega
    · have h1 := ihr (copyAlloc l (n + 1)).2 i h
      have h2 := copyAlloc_ctr_le l (n + 1)
      omega

theorem copyAlloc_ids_fresh (t : Tree K (Nat × W)) (n : Nat)
    (s : Tree K (Nat × W)) (hs : ∀ i ∈ ids s, i < n) :
    ∀ i ∈ ids (copyAlloc t n).1, i ∉ ids s := by
  intro i hi hmem
  have h1 := copyAlloc_ids_ge t n i hi
  have h2 := hs i hmem
  omega

end CopyLemmas

section MoreHelpers

variable {K V : Type} [LinearOrder K]

open Tree Ctx

theorem getLast?_map_fst (L : List (K × V)) :
    (L.map Prod.fst).getLast? = (L.getLast?).map Prod.fst := by
  induction L with
  | nil => rfl
  | cons p L ih =>
    cases L with
    | nil => rfl
    | cons q L2 =>
      simp only [List.map_cons] at ih ⊢
      rw [List.getLast?_cons_cons, List.getLast?_cons_cons]
      exact ih

/-- The `insertNode` key facts at tree level, from sortedness alone. -/
theorem insert_tree_spec (t : Tree K V) (k : K) (v : V) (hs : Sorted t)
    (habs : findVal t k = none) :
    Sorted (insGo k v Ctx.root t).1 ∧
      (inorder (insGo k v Ctx.root t).1).length = (inorder t).length + 1 ∧
      (∀ j, findVal (insGo k v Ctx.root t).1 j =
        if j = k then some v else findVal t j) ∧
      (insGo k v Ctx.root t).2 = true := by
  have hfound : foundB t k = false := by
    rw [foundB_eq, findSub_isSome_iff_findVal, habs]
    rfl
  have hflag : (insGo k v Ctx.root t).2 = true := by
    rw [insGo_flag, hfound]
    rfl
  obtain ⟨A, B, hAB, hIns, hA, hB⟩ := insList_decomp k v t hs hfound
  have hio : inorder (insGo k v Ctx.root t).1 = A ++ (k, v) :: B := by
    rw [insGo_inorder]
    simp [Ctx.ctxL, Ctx.ctxR, hIns]
  have hpairAB : List.Pairwise (fun p q : K × V => p.1 < q.1) (A ++ B) := by
    rw [← hAB]
    exact (sorted_pair t).mp hs
  have hsorted : Sorted (insGo k v Ctx.root t).1 := by
    rw [sorted_pair, hio]
    exact pairwise_mid A B k v hpairAB hA hB
  refine ⟨hsorted, ?_, fun j => ?_, hflag⟩
  · rw [hio, hAB]
    simp
    omega
  · rw [sorted_findVal _ _ hsorted, hio, lookupKV_mid A B k v j hA]
    by_cases hj : j = k
    · simp [hj]
    · rw [if_neg hj, if_neg hj, ← hAB, ← sorted_findVal _ _ hs]

end MoreHelpers

/-! ### The claims -/

section Claims

open Tree Ctx

/-- C1: the claim says every sequence of insertions and erasures preserves
the red-black invariants.  The code violates it: the run of
`insert 2, 1, 3, 0; erase 0; erase 1` completes (no operation crashes) and
yields the tree `2B (·, 3B)` — in-order keys are still ascending and no
red-red edge exists, but the black-height differs between the two sides,
because `deleteNode` (line 294) skips `fixDelete` when the replacement `x`
is null although the removed node was black. -/
theorem c1_invariants_broken :
    ∃ m : MapS Nat Nat, runOps 0 bugOps = some m ∧
      Sorted m.tree ∧ noRedRed m.tree = true ∧
      blackHeight m.tree = none ∧ ¬ rbInvariants m.tree :=
  ⟨⟨.node .nil (2, 20) false (.node .nil (3, 30) false .nil), 2⟩, by decide⟩

/-- C2: the claim says the delete fix-up runs whenever the physically removed
node was black.  In `bugMap5` the node of key `1` is a black leaf: erasing
it removes a black node (`yColor = false`) with a null replacement, and the
guard `!y_original_color && x != nullptr` of line 294 skips `fixDelete`
(`ranFix = false`). -/
theorem c2_fixdelete_skipped :
    runOps 0 [.ins 2 20, .ins 1 10, .ins 3 30, .ins 0 5, .er 0] = some bugMap5 ∧
      findLoc .root bugMap5.tree 1 = some (c2ctx, c2node) ∧
      (deleteLoc c2ctx c2node).yColor = false ∧
      (deleteLoc c2ctx c2node).ranFix = false ∧
      eraseKey bugMap5 1 = runOps 0 bugOps := by
  decide

/-- C3: `insert` of an already-present key performs no mutation — the map,
its size and the stored value are unchanged — and returns the pair
(iterator to the existing entry holding `k`, `false`). -/
theorem c3_insert_existing_noop {K V : Type} [LinearOrder K] (m : MapS K V)
    (k : K) (v : V) (c : Ctx K V) (z : Tree K V)
    (h : findLoc .root m.tree k = some (c, z)) :
    insertFull m k v = (m, some (c, z), false) ∧
      (insertFull m k v).1.msize = m.msize ∧
      findVal (insertFull m k v).1.tree k = findVal m.tree k ∧
      ∃ l d col r, z = .node l d col r ∧ d.1 = k ∧ findVal m.tree k = some d.2 := by
  obtain ⟨l, d, col, r, rfl, hk, hp⟩ := findLoc_some m.tree .root c k z h
  have h1 : insertFull m k v = (m, some (c, .node l d col r), false) := by
    simp [insertFull, h]
  refine ⟨h1, by rw [h1], by rw [h1], l, d, col, r, rfl, hk, ?_⟩
  simp [findVal, h]

/-- Witness for C3 on the singleton map `{1 ↦ 10}`. -/
theorem c3_insert_existing_noop_witness :
    insertFull (⟨.node .nil (1, 10) false .nil, 1⟩ : MapS Nat Nat) 1 99 =
      (⟨.node .nil (1, 10) false .nil, 1⟩,
        some (Ctx.root, Tree.node .nil (1, 10) false .nil), false) :=
  (c3_insert_existing_noop ⟨.node .nil (1, 10) false .nil, 1⟩ 1 99 Ctx.root
    (Tree.node .nil (1, 10) false .nil) (by decide)).1

/-- C4: the claim promises that `find k` tracks an inserted value until it
is erased or overwritten, and that after `erase k` the container answers
`find k = end()` and `count k = 0`.  The code fails it: the operation
sequence `crashOps ++ [erase 4]` — inserts and erases only — reaches
`crashMap`, on which `4` is present (`find` resolves to `40`, `count` is
`1`), and the final `erase 4` never completes: the delete fix-up
dereferences the null sibling of the transplanted black node (line 152), so
no post-`erase` state exists in which `find 4 = end()` and `count 4 = 0`
could be observed.  The corrupted shape exposing the null sibling is itself
the product of the line-294 guard having skipped two earlier fix-ups. -/
theorem c4_erase_crashes :
    runOps 0 crashOps = some crashMap ∧
      findVal crashMap.tree 4 = some 40 ∧
      countK crashMap.tree 4 = 1 ∧
      eraseKey crashMap 4 = none ∧
      runOps 0 (crashOps ++ [Op.er 4]) = none := by
  decide

/-- C5: on every container an operation history actually constructs,
iterating `++` from `begin()` enumerates exactly the in-order positions,
whose entries are the stored pairs in strictly ascending key order; the
iterator becomes `end()` after exactly `size()` steps and not before; and
`--` applied to `end()` of a non-empty container lands on the entry with
the maximum key. -/
theorem c5_iteration_inorder {K V : Type} [LinearOrder K] (dflt : V)
    (ops : List (Op K V)) (m : MapS K V) (hm : runOps dflt ops = some m) :
    (∀ i, nthPos m.tree i = (inorderPaths m.tree).get? i) ∧
    ((inorderPaths m.tree).map (dataAt m.tree) = (inorder m.tree).map some) ∧
    List.Pairwise (· < ·) (Tree.keys m.tree) ∧
    (inorderPaths m.tree).length = m.msize ∧
    nthPos m.tree m.msize = none ∧
    (∀ i, i < m.msize → (nthPos m.tree i).isSome = true) ∧
    (m.tree ≠ .nil →
      ∃ p dm, decPos m.tree none = .ok p ∧
        dataAt m.tree p = some dm ∧ dm ∈ inorder m.tree ∧
        ∀ q ∈ Tree.keys m.tree, q ≤ dm.1) := by
  obtain ⟨hs, hlen, _⟩ := runOps_inv dflt ops m hm
  have hplen : (inorderPaths m.tree).length = m.msize := by
    rw [inorderPaths_length]
    exact hlen.symm
  refine ⟨nthPos_eq _, dataAt_paths _, hs, hplen, ?_, ?_, ?_⟩
  · rw [nthPos_eq]
    exact List.get?_eq_none.mpr (le_of_eq hplen)
  · intro i hi
    rw [nthPos_eq]
    cases hg : (inorderPaths m.tree).get? i with
    | none =>
      have := List.get?_eq_none.mp hg
      omega
    | some p => rfl
  · intro ht
    have hdec : decPos m.tree none = .ok (rightmostPath m.tree) := by
      cases htr : m.tree with
      | nil => exact absurd htr ht
      | node l d c r => rfl
    have hrd := rightmost_data m.tree ht
    cases hlast : (inorder m.tree).getLast? with
    | none =>
      exfalso
      cases htr : m.tree with
      | nil => exact absurd htr ht
      | node l d c r =>
        rw [htr] at hlast
        rw [List.getLast?_eq_none_iff] at hlast
        exact inorder_ne_nil l d c r hlast
    | some dm =>
      refine ⟨rightmostPath m.tree, dm, hdec, hrd.trans hlast, ?_, ?_⟩
      · obtain ⟨hne, heq⟩ := List.mem_getLast?_eq_getLast (by rw [hlast]; rfl)
        exact heq ▸ List.getLast_mem hne
      · intro q hq
        apply pairwise_le_getLast _ hs q hq dm.1
        rw [Tree.keys, getLast?_map_fst, hlast]
        rfl

/-- Witness for C5 on the container `insert (1,10); insert (2,20)` builds:
`--end()` lands on the maximum entry `(2, 20)`. -/
theorem c5_iteration_inorder_witness :
    ∃ p dm,
      decPos (Tree.node .nil ((1 : Nat), (10 : Nat)) false
        (.node .nil (2, 20) true .nil)) none = .ok p ∧
      dataAt (Tree.node .nil ((1 : Nat), (10 : Nat)) false
        (.node .nil (2, 20) true .nil)) p = some dm ∧
      dm ∈ inorder (Tree.node .nil ((1 : Nat), (10 : Nat)) false
        (.node .nil (2, 20) true .nil)) ∧
      ∀ q ∈ Tree.keys (Tree.node .nil ((1 : Nat), (10 : Nat)) false
        (.node .nil (2, 20) true .nil)), q ≤ dm.1 :=
  (c5_iteration_inorder 0 [Op.ins 1 10, Op.ins 2 20]
      ⟨.node .nil (1, 10) false (.node .nil (2, 20) true .nil), 2⟩
      (by decide)).2.2.2.2.2.2 (by decide)

/-- C6: `++end()` throws `invalid_iterator` (line 336), `--begin()` throws
`invalid_iterator` on every container — empty (line 367) or not (line 384) —
and `at` on an absent key throws `index_out_of_bound`; each failing call
returns the container exactly as it was. -/
theorem c6_boundary_errors {K V : Type} [LinearOrder K] (m : MapS K V) (k : K) :
    incOp m none = (m, .error ()) ∧
    decOp m (beginPos m.tree) = (m, .error ()) ∧
    (findVal m.tree k = none → atOp m k = (m, .error ())) := by
  refine ⟨rfl, ?_, ?_⟩
  · show (m, decPos m.tree (beginPos m.tree)) = (m, .error ())
    rw [decPos_begin]
  · intro h
    show (m, atVal m.tree k) = (m, .error ())
    rw [atVal_absent m.tree k h]

/-- Witness for C6: `at 2` on the singleton map `{1 ↦ 10}` errors without
touching the map. -/
theorem c6_boundary_errors_witness :
    atOp (⟨.node .nil (1, 10) false .nil, 1⟩ : MapS Nat Nat) 2 =
      (⟨.node .nil (1, 10) false .nil, 1⟩, .error ()) :=
  (c6_boundary_errors (⟨.node .nil (1, 10) false .nil, 1⟩ : MapS Nat Nat) 2).2.2
    (by decide)

/-- C7: on a sorted container, the mutable `operator[]` inserts a
default-constructed entry for an absent key — the result holds `k ↦ dflt`,
the size grows by exactly one, and the returned reference reads `dflt` —
while on a present key it returns the stored value and changes nothing; the
`const` `operator[]` is `at` (line 592) and raises out-of-bound on an absent
key without inserting. -/
theorem c7_index_operator {K V : Type} [LinearOrder K] (dflt : V) (m : MapS K V)
    (k : K) (hs : Sorted m.tree) :
    (findVal m.tree k = none →
      (opIndex dflt m k).2 = dflt ∧
      (opIndex dflt m k).1.msize = m.msize + 1 ∧
      findVal (opIndex dflt m k).1.tree k = some dflt) ∧
    (∀ v, findVal m.tree k = some v → opIndex dflt m k = (m, v)) ∧
    constIndexOp m k = atOp m k ∧
    (findVal m.tree k = none → constIndexOp m k = (m, .error ())) := by
  refine ⟨?_, ?_, rfl, ?_⟩
  · intro habs
    have hL : findLoc Ctx.root m.tree k = none := by
      cases hL : findLoc Ctx.root m.tree k with
      | none => rfl
      | some p =>
        rcases p with ⟨c, z⟩
        obtain ⟨l, d, col, r, rfl, _, _⟩ := findLoc_some m.tree Ctx.root c k z hL
        simp [findVal, hL] at habs
    obtain ⟨hsorted, hlen, hlook, hflag⟩ := insert_tree_spec m.tree k dflt hs habs
    have hred : opIndex dflt m k = ((insertNodeM m k dflt).1, dflt) := by
      simp [opIndex, hL]
    refine ⟨by rw [hred], ?_, ?_⟩
    · rw [hred]
      show (if (insGo k dflt Ctx.root m.tree).2 then m.msize + 1 else m.msize) = m.msize + 1
      rw [hflag]
      rfl
    · rw [hred]
      show findVal (insGo k dflt Ctx.root m.tree).1 k = some dflt
      rw [hlook k]
      simp
  · intro v hv
    cases hL : findLoc Ctx.root m.tree k with
    | none => simp [findVal, hL] at hv
    | some p =>
      rcases p with ⟨c, z⟩
      obtain ⟨l, d, col, r, rfl, _, _⟩ := findLoc_some m.tree Ctx.root c k z hL
      have hd : d.2 = v := by
        simp [findVal, hL] at hv
        exact hv
      simp [opIndex, hL, hd]
  · intro habs
    show (m, atVal m.tree k) = (m, .error ())
    rw [atVal_absent m.tree k habs]

/-- Witness for C7: `m[2]` on the sorted singleton `{1 ↦ 10}` inserts the
default value `0` and grows the size to 2. -/
theorem c7_index_operator_witness :
    (opIndex (0 : Nat) (⟨.node .nil (1, 10) false .nil, 1⟩ : MapS Nat Nat) 2).2 = 0 ∧
      (opIndex (0 : Nat) (⟨.node .nil (1, 10) false .nil, 1⟩ : MapS Nat Nat) 2).1.msize =
        (⟨.node .nil (1, 10) false .nil, 1⟩ : MapS Nat Nat).msize + 1 ∧
      findVal (opIndex (0 : Nat)
        (⟨.node .nil (1, 10) false .nil, 1⟩ : MapS Nat Nat) 2).1.tree 2 = some 0 :=
  (c7_index_operator 0 (⟨.node .nil (1, 10) false .nil, 1⟩ : MapS Nat Nat) 2
    (by decide)).1 (by decide)

/-- C8 counterexample: the claim says `erase(it)` raises invalid-iterator
exactly when the iterator is past-the-end, foreign, or stale.  Erasing node
id `0` turned `staleMap0` into `staleMap1` and freed that node; the iterator
`(7, some 0)` into `staleMap1` is not past-the-end, belongs to this very
container, and is stale (id `0` no longer names a live node), yet the guard
of line 666 does not raise (flag `false`): instead of the claimed error the
call proceeds into freed memory — undefined behaviour, `none`. -/
theorem c8_stale_not_rejected :
    (eraseInstr staleMap0.1 7 (some 0)).1 = some staleMap1 ∧
      (some 0 ≠ (none : Option Nat)) ∧
      staleMap1.cid = 7 ∧
      (0 ∉ ids staleMap1.tree) ∧
      (eraseInstr staleMap1 7 (some 0)).2 = false ∧
      (eraseInstr staleMap1 7 (some 0)).1 = none := by
  decide

/-- C8 (amended): `erase(it)` raises invalid-iterator exactly when the
iterator is past-the-end or bound to a different container instance, and in
those cases the container is unchanged; a stale iterator is not detected. -/
theorem c8_erase_guard_exact {K W : Type} [LinearOrder K] (m : MapI K W)
    (tag : Nat) (cur : Option Nat) :
    ((eraseInstr m tag cur).2 = true ↔ (tag ≠ m.cid ∨ cur = none)) ∧
    ((tag ≠ m.cid ∨ cur = none) → eraseInstr m tag cur = (some m, true)) := by
  by_cases hg : tag ≠ m.cid ∨ cur = none
  · have hred : eraseInstr m tag cur = (some m, true) := by
      simp only [eraseInstr, if_pos hg]
    rw [hred]
    exact ⟨iff_of_true rfl hg, fun _ => rfl⟩
  · constructor
    · constructor
      · intro hflag
        exfalso
        have hg2 : ¬(tag ≠ m.cid ∨ cur = none) := hg
        push_neg at hg
        cases hc : cur with
        | none => exact hg.2 hc
        | some i =>
          subst hc
          rw [show eraseInstr m tag (some i) =
              (match locById Ctx.root m.tree i with
                | some (c, z) =>
                  (((deleteLoc c z).tree).map
                    (fun t => (⟨m.cid, t, m.msize - 1⟩ : MapI K W)), false)
                | none => (none, false)) from by
            simp only [eraseInstr, if_neg hg2]] at hflag
          cases hloc : locById Ctx.root m.tree i with
          | none => rw [hloc] at hflag; simp at hflag
          | some p => rcases p with ⟨c, z⟩; rw [hloc] at hflag; simp at hflag
      · intro h
        exact absurd h hg
    · intro h
      exact absurd h hg

/-- Witness for C8 (amended): a foreign tag raises and leaves the map
unchanged. -/
theorem c8_erase_guard_exact_witness :
    eraseInstr staleMap1 3 (some 0) = (some staleMap1, true) :=
  (c8_erase_guard_exact staleMap1 3 (some 0)).2 (by decide)

/-- C9: both copy construction and copy assignment from a source `s` produce
the same entries, colors and topology (`stripIds` equal), the source's
`map_size`, and only freshly allocated nodes — no node id is shared with the
source; and the assignment's event trace is all `destroy` frees, then all
`copy` allocations. -/
theorem c9_deep_copy {K W : Type} [LinearOrder K] (s d : MapI K W)
    (newCid ctr : Nat) (hs : ∀ i ∈ ids s.tree, i < ctr) :
    (stripIds ((copyCtor newCid s ctr).1).tree = stripIds s.tree ∧
      ((copyCtor newCid s ctr).1).msize = s.msize ∧
      (∀ i ∈ ids ((copyCtor newCid s ctr).1).tree, i ∉ ids s.tree)) ∧
    (stripIds ((assignInstr false d s ctr).1).tree = stripIds s.tree ∧
      ((assignInstr false d s ctr).1).msize = s.msize ∧
      (∀ i ∈ ids ((assignInstr false d s ctr).1).tree, i ∉ ids s.tree) ∧
      ∃ fr al, (assignInstr false d s ctr).2.2 = fr ++ al ∧
        (∀ e ∈ fr, ∃ i, e = Ev.free i) ∧ (∀ e ∈ al, ∃ i, e = Ev.alloc i)) := by
  refine ⟨⟨copyAlloc_strip s.tree ctr, rfl, ?_⟩,
    copyAlloc_strip s.tree ctr, rfl, ?_, ?_⟩
  · exact copyAlloc_ids_fresh s.tree ctr s.tree hs
  · exact copyAlloc_ids_fresh s.tree ctr s.tree hs
  · refine ⟨(postIds d.tree).map Ev.free,
      (preIds (copyAlloc s.tree ctr).1).map Ev.alloc, rfl, ?_, ?_⟩
    · intro e he
      obtain ⟨i, _, rfl⟩ := List.mem_map.mp he
      exact ⟨i, rfl⟩
    · intro e he
      obtain ⟨i, _, rfl⟩ := List.mem_map.mp he
      exact ⟨i, rfl⟩

/-- Witness for C9 on the two-entry instrumented container. -/
theorem c9_deep_copy_witness :
    stripIds ((copyCtor 9 staleMap0.1 2).1).tree = stripIds staleMap0.1.tree :=
  (c9_deep_copy staleMap0.1 staleMap1 9 2 (by decide)).1.1

/-- C10: self-assignment returns through the `this == &other` guard of
line 538: the container — entries, size, tree structure, node identities —
is returned unchanged, the allocation counter does not move, and no destroy
or copy event happens. -/
theorem c10_self_assign {K W : Type} [LinearOrder K] (m : MapI K W) (ctr : Nat) :
    assignInstr true m m ctr = (m, ctr, []) := rfl

end Claims

end SjtuMap
